import Mathlib

/-!
# HTTP server core: response encoder, request decoder, connection record,
# registry and read-task

A shallow embedding of `HttpResponse.cpp`, `HttpRequest.cpp`, `Connection.cpp`
and the request path of `HttpServer.cpp`.

Conventions of the embedding.
* A `std::string` is a `List Char`, one `Char` per byte, so `size()` is
  `List.length`.
* A `std::unordered_map<std::string, std::string>` is an association list with
  at most one entry per key; `operator[]=` is `umap_set`, `find` is
  `umap_find`. The order in which a range-for visits the entries is not
  fixed by the language, so every function that iterates takes an `IterOrder`.
* `size_t` subtraction is done in `Nat` modulo `2 ^ 64` (`size_t_sub`).
* A call that takes `connections_mutex_` ends in an `Outcome`: it returns, or it waits
  forever for a mutex that is already held.
-/

/-- A `std::string`: a sequence of bytes. -/
abbrev Str := List Char

/-- A `std::unordered_map<std::string, std::string>`. -/
abbrev HeaderMap := List (Str × Str)

/-- The statement `m[k] = v` on an unordered map: overwrite the entry of `k`, or add
one. -/
def umap_set {κ ν : Type} [DecidableEq κ] : List (κ × ν) → κ → ν → List (κ × ν)
  | [], k, v => [(k, v)]
  | (k0, v0) :: m, k, v => if k0 = k then (k0, v) :: m else (k0, v0) :: umap_set m k v

/-- The lookup `m.find(k)` on an unordered map, `none` standing for `end()`. -/
def umap_find {κ ν : Type} [DecidableEq κ] : List (κ × ν) → κ → Option ν
  | [], _ => none
  | (k0, v0) :: m, k => if k0 = k then some v0 else umap_find m k

/-- The call `m.erase(k)` on an unordered map. -/
def umap_erase {κ ν : Type} [DecidableEq κ] : List (κ × ν) → κ → List (κ × ν)
  | [], _ => []
  | (k0, v0) :: m, k => if k0 = k then umap_erase m k else (k0, v0) :: umap_erase m k

/-- An iteration order of an unordered map: each entry is visited exactly once. -/
structure IterOrder where
  /-- The entries in the order the range-for visits them. -/
  run : HeaderMap → HeaderMap
  /-- Every entry is visited exactly once. -/
  perm : ∀ m, List.Perm (run m) m

/-- The iteration order that follows the stored order. -/
def IterOrder.stored : IterOrder := ⟨fun m => m, fun m => List.Perm.refl m⟩

/-- The text `std::to_string(n)` and `oss << n` produce: decimal digits. -/
def to_string (n : Nat) : Str := Nat.toDigits 10 n

/-- The two bytes CR LF. -/
def crlf : Str := ['\r', '\n']

namespace HttpResponse

/-- The reason phrase of `get_status_message`. -/
def get_status_message (code : Nat) : Str :=
  match code with
  | 200 => "OK".toList
  | 400 => "Bad Request".toList
  | 404 => "Not Found".toList
  | 500 => "Internal Server Error".toList
  | _ => "Unknown".toList

/-- The map built by `get_default_headers`. -/
def get_default_headers (keep_alive : Bool) : HeaderMap :=
  let headers : HeaderMap := []
  let headers := umap_set headers "Server".toList "High-Performance-HTTP-Server/1.0".toList
  let headers := umap_set headers "Connection".toList
    (if keep_alive then "keep-alive".toList else "close".toList)
  if keep_alive then
    umap_set headers "Keep-Alive".toList "timeout=5, max=1000".toList
  else
    headers

/-- One pass of the loop `oss << header.first << ": " << header.second << "\r\n"`. -/
def emit_header (header : Str × Str) : Str :=
  header.1 ++ ": ".toList ++ header.2 ++ crlf

/-- The serialisation `build_response(code, body, keep_alive)`. -/
def build_response (ord : IterOrder) (code : Nat) (body : Str) (keep_alive : Bool) : Str :=
  let oss := "HTTP/1.1 ".toList ++ to_string code ++ " ".toList ++ get_status_message code ++ crlf
  let headers := get_default_headers keep_alive
  let headers := umap_set headers "Content-Length".toList (to_string body.length)
  let headers := umap_set headers "Content-Type".toList "text/html; charset=utf-8".toList
  let oss := oss ++ ((ord.run headers).map emit_header).flatten
  let oss := oss ++ crlf
  oss ++ body

end HttpResponse

/-- The reason phrase the specification assigns to a status code. -/
def spec_reason (code : Nat) : Str :=
  if code = 200 then "OK".toList
  else if code = 400 then "Bad Request".toList
  else if code = 404 then "Not Found".toList
  else if code = 500 then "Internal Server Error".toList
  else "Unknown".toList

/-- The header lines the specification lists for a response. -/
def spec_header_lines (body : Str) (keep_alive : Bool) : List Str :=
  [ "Server: High-Performance-HTTP-Server/1.0\r\n".toList,
    (if keep_alive then "Connection: keep-alive\r\n".toList else "Connection: close\r\n".toList),
    "Content-Length: ".toList ++ to_string body.length ++ "\r\n".toList,
    "Content-Type: text/html; charset=utf-8\r\n".toList ] ++
  (if keep_alive then ["Keep-Alive: timeout=5, max=1000\r\n".toList] else [])

/-! ## The request decoder (`HttpRequest.cpp`) -/

/-- The test `std::isspace` of the classic locale, which delimits the words read by
`operator>>`: space, HT, LF, VT, FF, CR. -/
def isspace (c : Char) : Bool :=
  c == ' ' || c == '\t' || c == '\n' || c == '\x0b' || c == '\x0c' || c == '\r'

/-- The call `std::getline(stream, line)` on the unread input `stream`: it fails on
exhausted input, otherwise it gives the text before the first LF and leaves what follows
that LF unread. -/
def getline (stream : Str) : Option (Str × Str) :=
  match stream with
  | [] => none
  | _ :: _ => some (stream.takeWhile (fun c => c != '\n'),
      (stream.dropWhile (fun c => c != '\n')).drop 1)

/-- The extraction `stream >> word`: skip leading whitespace, read up to the next
whitespace; it fails when no byte is left to read. -/
def extract_word (stream : Str) : Option (Str × Str) :=
  match stream.dropWhile isspace with
  | [] => none
  | c :: s => some ((c :: s).takeWhile (fun x => !isspace x),
      (c :: s).dropWhile (fun x => !isspace x))

/-- The statement `if (!line.empty() && line.back() == '\r') line.pop_back();`. -/
def pop_cr (line : Str) : Str :=
  if line.getLast? = some '\r' then line.dropLast else line

/-- Membership in the set `" \t"` used for trimming. -/
def is_blank (c : Char) : Bool := c == ' ' || c == '\t'

/-- The two `erase` calls around `find_first_not_of(" \t")` and
`find_last_not_of(" \t")`. -/
def trim (s : Str) : Str := (s.dropWhile is_blank).rdropWhile is_blank

/-- The call `std::transform(s.begin(), s.end(), s.begin(), ::tolower)`: ASCII only. -/
def tolower (s : Str) : Str := s.map Char.toLower

/-- The body of the header loop for one line. -/
def header_line (line : Str) (headers : HeaderMap) : HeaderMap :=
  let line := pop_cr line
  if ':' ∈ line then
    let key := line.takeWhile (fun c => c != ':')
    let value := (line.dropWhile (fun c => c != ':')).drop 1
    umap_set headers (tolower (trim key)) (trim value)
  else
    headers

/-- The loop `while (std::getline(stream, line) && line != "\r" && line != "")`; every
pass consumes at least one byte, so `fuel = stream.length` passes suffice. -/
def parse_headers : Nat → Str → HeaderMap → HeaderMap
  | 0, _, headers => headers
  | fuel + 1, stream, headers =>
    match getline stream with
    | none => headers
    | some (line, rest) =>
      if line = ['\r'] ∨ line = [] then headers
      else parse_headers fuel rest (header_line line headers)

/-- The class `HttpRequest`. -/
structure HttpRequest where
  /-- The field `method`. -/
  method : Str
  /-- The field `path`. -/
  path : Str
  /-- The field `version`. -/
  version : Str
  /-- The field `headers`. -/
  headers : HeaderMap
  /-- The field `body`. -/
  body : Str
  /-- The field `keep_alive`. -/
  keep_alive : Bool
deriving DecidableEq, Repr

namespace HttpRequest

/-- A default-constructed request: empty strings, empty map, `keep_alive = false`. -/
def fresh : HttpRequest := ⟨[], [], [], [], [], false⟩

/-- The method `get_header(key)`. -/
def get_header (req : HttpRequest) (key : Str) : Str :=
  match umap_find req.headers key with
  | some v => v
  | none => []

/-- The function `HttpRequest::parse(raw_request, req)`; `none` is the return value
`false`. -/
def parse (raw_request : Str) (req : HttpRequest) : Option HttpRequest :=
  match getline raw_request with
  | none => none
  | some (line, stream) =>
    match extract_word (pop_cr line) with
    | none => none
    | some (method, s1) =>
      match extract_word s1 with
      | none => none
      | some (path, s2) =>
        match extract_word s2 with
        | none => none
        | some (version, _) =>
          let req := { req with method := method, path := path, version := version }
          let req := { req with headers := parse_headers stream.length stream req.headers }
          let connection := tolower (req.get_header "connection".toList)
          some { req with keep_alive := connection == "keep-alive".toList ||
            (req.version == "HTTP/1.1".toList && connection != "close".toList) }

end HttpRequest

/-! ### The request line -/

/-- The first line as the specification describes it: the text before the first LF,
with one trailing CR removed. -/
def spec_first_line (raw : Str) : Str :=
  let line := raw.takeWhile (fun c => c != '\n')
  if line.getLast? = some '\r' then line.dropLast else line

/-- The whitespace-separated tokens of a line: the non-empty pieces between whitespace
bytes. -/
def spec_tokens (line : Str) : List Str :=
  (line.splitOnP isspace).filter (fun w => !w.isEmpty)

/-- The text of one header line as the round trip writes it. -/
def spec_header_text (h : Str × Str) : Str :=
  h.1 ++ ": ".toList ++ h.2 ++ "\r\n".toList

/-- The request text the round trip writes. -/
def spec_request_text (method path version : Str) (hdrs : List (Str × Str)) : Str :=
  method ++ " ".toList ++ path ++ " ".toList ++ version ++ "\r\n".toList ++
    (hdrs.map spec_header_text).flatten ++ "\r\n".toList

/-- The header pairs the round trip ranges over: the name is non-empty, has no `:`, CR
or LF and no leading or trailing space or tab; the value has no CR or LF. -/
def spec_header_ok (h : Str × Str) : Prop :=
  h.1 ≠ [] ∧ (∀ c ∈ h.1, c ≠ ':' ∧ c ≠ '\r' ∧ c ≠ '\n') ∧
  (∀ c ∈ h.1.head?, is_blank c = false) ∧ (∀ c ∈ h.1.getLast?, is_blank c = false) ∧
  (∀ c ∈ h.2, c ≠ '\r' ∧ c ≠ '\n')

/-! ## The connection record (`Connection.cpp`) -/

/-- Subtraction of two `size_t` values: the difference modulo `2 ^ 64`. -/
def size_t_sub (a b : Nat) : Nat := (a % 2 ^ 64 + (2 ^ 64 - b % 2 ^ 64)) % 2 ^ 64

/-- The class `Connection` (the peer address plays no role and is left out). -/
structure Connection where
  /-- The field `fd`. -/
  fd : Int
  /-- The field `buffer`, a `std::vector<char>`. -/
  buffer : List Char
  /-- The field `bytes_read`. -/
  bytes_read : Nat
  /-- The field `keep_alive`. -/
  keep_alive : Bool
deriving DecidableEq

namespace Connection

/-- The constructor `Connection(sockfd, addr)`: an 8192-byte zeroed buffer. -/
def construct (sockfd : Int) : Connection :=
  ⟨sockfd, List.replicate 8192 '\x00', 0, false⟩

/-- The method `reset()`. -/
def reset (c : Connection) : Connection :=
  { c with bytes_read := 0, keep_alive := false, buffer := List.replicate 8192 '\x00' }

/-- The length passed to `recv`: `buffer.size() - bytes_read - 1` in `size_t`. -/
def recv_len (c : Connection) : Nat :=
  size_t_sub (size_t_sub c.buffer.length c.bytes_read) 1

/-- The effect of a `recv` that returned `bytes.length > 0` bytes, followed by
`bytes_read += n; buffer[bytes_read] = 0`. -/
def store (c : Connection) (bytes : Str) : Connection :=
  let buffer := c.buffer.take c.bytes_read ++ bytes ++
    c.buffer.drop (c.bytes_read + bytes.length)
  let bytes_read := c.bytes_read + bytes.length
  { c with buffer := buffer.set bytes_read '\x00', bytes_read := bytes_read }

/-- The string `request_data(buffer.data(), bytes_read)`. -/
def request_data (c : Connection) : Str := c.buffer.take c.bytes_read

end Connection

/-- What a call of `recv` gives back. -/
inductive RecvResult where
  /-- The call returned `n = bytes.length >= 0` and wrote `bytes`. -/
  | data (bytes : Str)
  /-- The call returned `n < 0` with `errno` `EAGAIN` or `EWOULDBLOCK`. -/
  | eagain
  /-- The call returned `n < 0` with another `errno`. -/
  | error
deriving DecidableEq

/-- The position `haystack.find(needle)` of the first occurrence, `none` for `npos`. -/
def str_find (needle : Str) : Str → Option Nat
  | [] => if needle = [] then some 0 else none
  | c :: s =>
    if needle.isPrefixOf (c :: s) then some 0
    else (str_find needle s).map (fun i => i + 1)

/-- The separator CR LF CR LF. -/
def crlfcrlf : Str := ['\r', '\n', '\r', '\n']

/-! ## The server (`HttpServer.cpp`) -/

/-- What a task does, in the order it does it. -/
inductive Effect where
  /-- A read or write of the connection record of `fd`. -/
  | record (fd : Int)
  /-- Entry into `process_request(fd, request_data)`. -/
  | process (fd : Int) (request_data : Str)
  /-- The bytes handed to `send_response(fd, response)`. -/
  | send (fd : Int) (response : Str)
  /-- The call `epoll_ctl(epoll_fd_, EPOLL_CTL_MOD, fd, &ev)` with one-shot read interest. -/
  | rearm (fd : Int)
  /-- A completed `close_connection(fd)`. -/
  | close (fd : Int)
deriving DecidableEq

/-- The state of the class `HttpServer` that the request path reads and writes. -/
structure HttpServer where
  /-- The field `max_connections_`. -/
  max_connections : Nat
  /-- The field `running_`. -/
  running : Bool
  /-- The field `connections_`: the registry, one record per descriptor. -/
  connections : List (Int × Connection)
  /-- The interest list behind `epoll_fd_`: each registered client descriptor with its
  one-shot state (`true` armed, `false` disarmed). -/
  epoll : List (Int × Bool)
  /-- The queue of `thread_pool_`: the descriptor captured by each queued read-task. -/
  tasks : List Int
  /-- The read-tasks whose worker waits forever for `connections_mutex_`. -/
  stuck : List Int
  /-- Whether `connections_mutex_` is locked. -/
  mutex_held : Bool
  /-- Ghost field: the effects performed so far, oldest first. -/
  trace : List Effect
deriving DecidableEq

/-- How a call ends. -/
inductive Outcome where
  /-- The call returned in state `s`. -/
  | returned (s : HttpServer)
  /-- The call never returns: in state `s` it waits for a mutex that is not released. -/
  | blocked (s : HttpServer)
deriving DecidableEq

/-- The state in which the call ended. -/
def Outcome.state : Outcome → HttpServer
  | .returned s => s
  | .blocked s => s

/-- Sequencing: what follows a call happens only when the call returns. -/
def Outcome.and_then (o : Outcome) (f : HttpServer → Outcome) : Outcome :=
  match o with
  | .returned s => f s
  | .blocked s => .blocked s

namespace HttpServer

/-- The constructor `HttpServer(port, thread_pool_size, max_connections)` followed by a
successful `start()`. -/
def start (max_connections : Nat) : HttpServer :=
  ⟨max_connections, true, [], [], [], [], false, []⟩

/-- Record an effect. -/
def log (e : Effect) (s : HttpServer) : HttpServer :=
  { s with trace := s.trace ++ [e] }

/-- Locking `connections_mutex_`, a non-recursive `std::mutex`. -/
def lock (s : HttpServer) : Outcome :=
  if s.mutex_held then .blocked s else .returned { s with mutex_held := true }

/-- Unlocking `connections_mutex_`. -/
def unlock (s : HttpServer) : HttpServer :=
  { s with mutex_held := false }

/-- The call `epoll_ctl(epoll_fd_, EPOLL_CTL_MOD, fd, &ev)` with
`EPOLLIN | EPOLLET | EPOLLONESHOT`; it fails, ignored, on an unregistered descriptor. -/
def rearm (fd : Int) (s : HttpServer) : HttpServer :=
  log (.rearm fd)
    { s with epoll := match umap_find s.epoll fd with
                      | some _ => umap_set s.epoll fd true
                      | none => s.epoll }

/-- The method `send_response(client_fd, response)`. -/
def send_response (client_fd : Int) (response : Str) (s : HttpServer) : HttpServer :=
  log (.send client_fd response) s

/-- The method `close_connection(client_fd)`: under the mutex, remove the descriptor
from epoll and erase the record. -/
def close_connection (client_fd : Int) (s : HttpServer) : Outcome :=
  (lock s).and_then fun s =>
    let s := { s with epoll := umap_erase s.epoll client_fd }
    let s := { s with connections := umap_erase s.connections client_fd }
    .returned (unlock (log (.close client_fd) s))

/-- The page `generate_response` serves for `/` and `/index.html`. -/
def welcome_page : Str :=
  "<html><head><title>High-Performance HTTP Server</title></head>".toList ++
  "<body><h1>Bienvenue sur le serveur HTTP haute performance</h1>".toList ++
  "<p>Serveur optimis\xc3\xa9 pour Linux avec epoll et ThreadPool</p>".toList ++
  "<p>Objectif: > 12 000 requ\xc3\xaates/seconde</p>".toList ++
  "<p>Support HTTP/1.1 avec keep-alive</p>".toList ++
  "</body></html>".toList

/-- The body sent with status 404. -/
def body_not_found : Str :=
  "<html><body><h1>404 Not Found</h1><p>La ressource demand\xc3\xa9e n'existe pas.</p></body></html>".toList

/-- The body sent with status 400 for a method other than GET. -/
def body_method_not_allowed : Str :=
  "<html><body><h1>405 Method Not Allowed</h1><p>La m\xc3\xa9thode HTTP n'est pas support\xc3\xa9e.</p></body></html>".toList

/-- The body sent with status 400 when `parse` fails. -/
def body_bad_request : Str :=
  "<html><body><h1>400 Bad Request</h1><p>La requ\xc3\xaate HTTP est invalide.</p></body></html>".toList

/-- The method `generate_response(request)`. -/
def generate_response (request : HttpRequest) : Str :=
  if request.method ≠ "GET".toList then
    []
  else if request.path = "/".toList ∨ request.path = "/index.html".toList then
    welcome_page
  else
    []

/-- The status code and body chosen in `process_request` after a successful parse. -/
def select_response (request : HttpRequest) : Nat × Str :=
  let response_body := generate_response request
  if response_body.isEmpty ∧ request.method = "GET".toList then
    (404, body_not_found)
  else if response_body.isEmpty then
    (400, body_method_not_allowed)
  else
    (200, response_body)

/-- The method `process_request(client_fd, request_data)`. The `catch` clauses are left
out: none of the embedded callees throws. -/
def process_request (ord : IterOrder) (client_fd : Int) (request_data : Str)
    (s : HttpServer) : Outcome :=
  let s := log (.process client_fd request_data) s
  match HttpRequest.parse request_data HttpRequest.fresh with
  | none =>
    let response := HttpResponse.build_response ord 400 body_bad_request false
    let s := send_response client_fd response s
    close_connection client_fd s
  | some request =>
    let chosen := select_response request
    let response := HttpResponse.build_response ord chosen.1 chosen.2 request.keep_alive
    let s := send_response client_fd response s
    (lock s).and_then fun s =>
      match umap_find s.connections client_fd with
      | some conn =>
        let conn := ({ conn with keep_alive := request.keep_alive }).reset
        let s := log (.record client_fd)
          { s with connections := umap_set s.connections client_fd conn }
        if request.keep_alive then
          .returned (unlock (rearm client_fd s))
        else
          (close_connection client_fd s).and_then fun s => .returned (unlock s)
      | none => .returned (unlock s)

/-- The task that `handle_read(client_fd)` enqueues, run with the outcome `r` of its
`recv` call. -/
def read_task (ord : IterOrder) (client_fd : Int) (r : RecvResult) (s : HttpServer) :
    Outcome :=
  (lock s).and_then fun s =>
    match umap_find s.connections client_fd with
    | none => .returned (unlock s)
    | some conn =>
      let s := log (.record client_fd) (unlock s)
      match r with
      | .eagain => .returned (rearm client_fd s)
      | .error => close_connection client_fd s
      | .data bytes =>
        if bytes.length = 0 then
          close_connection client_fd s
        else
          let conn := conn.store bytes
          let s := log (.record client_fd)
            { s with connections := umap_set s.connections client_fd conn }
          match str_find crlfcrlf conn.request_data with
          | some header_end =>
            process_request ord client_fd (conn.request_data.take (header_end + 4)) s
          | none =>
            if conn.bytes_read ≥ size_t_sub conn.buffer.length 1 then
              close_connection client_fd s
            else
              .returned (rearm client_fd s)

/-- One pass of the loop of `accept_connection` for an accepted descriptor; `add_ok`
says whether `epoll_ctl(EPOLL_CTL_ADD)` succeeds. -/
def accept_connection (client_fd : Int) (add_ok : Bool) (s : HttpServer) : Outcome :=
  (lock s).and_then fun s =>
    if s.connections.length ≥ s.max_connections then
      .returned (unlock s)
    else
      let conn := Connection.construct client_fd
      let s := { s with connections := umap_set s.connections client_fd conn }
      let s := unlock s
      if add_ok then
        .returned { s with epoll := umap_set s.epoll client_fd true }
      else
        close_connection client_fd s

/-- The method `stop()`. -/
def stop (s : HttpServer) : Outcome :=
  if ¬ s.running then .returned s
  else
    (lock { s with running := false }).and_then fun s =>
      .returned (unlock { s with connections := [], epoll := [] })

end HttpServer

/-! ## Definitions used by the statements -/

/-- The response carried by a send effect. -/
def Effect.sent : Effect → Option (Int × Str)
  | .send fd response => some (fd, response)
  | _ => none

/-- The responses handed to `send_response` so far, oldest first. -/
def HttpServer.sent (s : HttpServer) : List (Int × Str) :=
  s.trace.filterMap Effect.sent

/-- The request head of the scenario. -/
def post_head : Str := "POST / HTTP/1.1\r\nHost: x\r\n\r\n".toList

/-- A server with one registered connection on descriptor 5, disarmed because its read
event has just been delivered. -/
def one_connection : HttpServer :=
  { HttpServer.start 10000 with
    connections := [(5, Connection.construct 5)], epoll := [(5, false)] }

/-- The registry bound: no more records than `max_connections_`. -/
def HttpServer.within_capacity (s : HttpServer) : Prop :=
  s.connections.length ≤ s.max_connections

/-- The registry of `t` is no larger than that of `s`, under the same limit. -/
def HttpServer.no_growth (s t : HttpServer) : Prop :=
  t.connections.length ≤ s.connections.length ∧ t.max_connections = s.max_connections

/-- The operations that touch the registry. -/
inductive RegistryOp where
  /-- One pass of `accept_connection` for an accepted descriptor. -/
  | accept (fd : Int) (add_ok : Bool)
  /-- A call of `close_connection`. -/
  | close (fd : Int)
  /-- A call of `stop`. -/
  | stop
  /-- A run of the read-task of a descriptor. -/
  | read (fd : Int) (r : RecvResult)

/-- The state after one operation. -/
def HttpServer.apply_op (ord : IterOrder) (s : HttpServer) : RegistryOp → HttpServer
  | .accept fd add_ok => (HttpServer.accept_connection fd add_ok s).state
  | .close fd => (HttpServer.close_connection fd s).state
  | .stop => (HttpServer.stop s).state
  | .read fd r => (HttpServer.read_task ord fd r s).state

/-- The state after a sequence of operations. -/
def HttpServer.run_ops (ord : IterOrder) (ops : List RegistryOp) (s : HttpServer) :
    HttpServer :=
  ops.foldl (HttpServer.apply_op ord) s

/-- What a run of the read-task does to the record: a `recv` that returns `n > 0` stores
the bytes; any other outcome leaves the record as it is. -/
def Connection.read_step (c : Connection) : RecvResult → Connection
  | .data bytes => if bytes.length = 0 then c else c.store bytes
  | .eagain => c
  | .error => c

/-- The records that construction, read-task steps and `reset()` calls can produce, when
`recv` returns no more bytes than it was asked for. -/
inductive Connection.Reachable : Connection → Prop where
  /-- A freshly constructed record. -/
  | construct (fd : Int) : Connection.Reachable (Connection.construct fd)
  /-- A read-task step whose `recv` respects the requested length. -/
  | read (c : Connection) (r : RecvResult) :
      Connection.Reachable c →
      (∀ bytes, r = .data bytes → bytes.length ≤ c.recv_len) →
      Connection.Reachable (c.read_step r)
  /-- A call of `reset()`. -/
  | reset (c : Connection) : Connection.Reachable c → Connection.Reachable c.reset

/-- The buffer invariant: 8192 bytes of buffer, at most 8191 of them filled. -/
def Connection.buffer_ok (c : Connection) : Prop :=
  c.buffer.length = 8192 ∧ c.bytes_read ≤ c.buffer.length - 1

/-- Whether an effect is a re-arming. -/
def Effect.is_rearm : Effect → Bool
  | .rearm _ => true
  | _ => false

/-- Whether an effect is a completed close. -/
def Effect.is_close : Effect → Bool
  | .close _ => true
  | _ => false

/-- Whether an effect reads or writes a connection record. -/
def Effect.is_record : Effect → Bool
  | .record _ => true
  | _ => false

/-- Whether a call never returns. -/
def Outcome.is_blocked : Outcome → Bool
  | .returned _ => false
  | .blocked _ => true

/-- The shape of the effects a task on `fd` adds to the trace of `s`: effects without a
re-arming, or, when the call returns, effects without re-arming and close followed by
one re-arming of `fd` as the last effect. -/
def HttpServer.rearms_last (fd : Int) (s : HttpServer) (o : Outcome) : Prop :=
  ∃ pre : List Effect, pre.any Effect.is_rearm = false ∧
    (o.state.trace = s.trace ++ pre ∨
     (o.is_blocked = false ∧ pre.any Effect.is_close = false ∧
      o.state.trace = s.trace ++ (pre ++ [.rearm fd])))

/-- The discipline the specification asks of a task on `fd`, on the effects `t` it adds:
at most one re-arming, of `fd` only; none together with a close; no access to a
connection record after it. -/
def spec_rearm_discipline (fd : Int) (t : List Effect) : Prop :=
  (t.filter Effect.is_rearm).length ≤ 1 ∧
  (∀ g, Effect.rearm g ∈ t → g = fd) ∧
  (t.any Effect.is_close = true → t.any Effect.is_rearm = false) ∧
  (∀ a e b, t = a ++ e :: b → e.is_rearm = true → b.any Effect.is_record = false)

/-- What a task on `fd` leaves alone: the task queue, the stuck tasks, the one-shot state
of every other descriptor and, when it never returns, the whole interest list. -/
def HttpServer.frame (fd : Int) (s : HttpServer) (o : Outcome) : Prop :=
  o.state.tasks = s.tasks ∧ o.state.stuck = s.stuck ∧
  (∀ g, g ≠ fd → umap_find o.state.epoll g = umap_find s.epoll g) ∧
  (o.is_blocked = true → o.state.epoll = s.epoll)

/-- The state a worker leaves behind after running the read-task of `fd`: a task that
never returns stays with its worker for good. -/
def HttpServer.finish (fd : Int) : Outcome → HttpServer
  | .returned t => t
  | .blocked t => { t with stuck := fd :: t.stuck }

/-- The two steps of the reactor and the workers on client descriptors. -/
inductive HttpServer.Step (ord : IterOrder) : HttpServer → HttpServer → Prop where
  /-- The notifier delivers a read event for an armed descriptor: one-shot disarms it,
  and `handle_read` enqueues one read-task for it. -/
  | deliver (s : HttpServer) (fd : Int) :
      umap_find s.epoll fd = some true →
      HttpServer.Step ord s
        { s with epoll := umap_set s.epoll fd false, tasks := s.tasks ++ [fd] }
  /-- A worker takes a queued read-task and runs it, with any outcome of `recv`. -/
  | run (s : HttpServer) (fd : Int) (r : RecvResult) :
      fd ∈ s.tasks →
      HttpServer.Step ord s
        (HttpServer.finish fd
          (HttpServer.read_task ord fd r { s with tasks := s.tasks.erase fd }))

/-- The states reachable by these steps from a state without read-tasks. -/
inductive HttpServer.Reachable (ord : IterOrder) : HttpServer → Prop where
  /-- A state in which no read-task is queued or running. -/
  | init (s : HttpServer) : s.tasks = [] → s.stuck = [] → HttpServer.Reachable ord s
  /-- One more step. -/
  | step (s t : HttpServer) :
      HttpServer.Reachable ord s → HttpServer.Step ord s t → HttpServer.Reachable ord t

/-- Per-descriptor serialisation: at most one read-task of a descriptor is queued or
running, and none while the descriptor is armed. -/
def HttpServer.serialized (s : HttpServer) : Prop :=
  ∀ fd, (s.tasks ++ s.stuck).count fd ≤ 1 ∧
    (umap_find s.epoll fd = some true → (s.tasks ++ s.stuck).count fd = 0)

/-- A server whose only connection, descriptor 5, is armed. -/
def one_armed_connection : HttpServer :=
  { HttpServer.start 10000 with
    connections := [(5, Connection.construct 5)], epoll := [(5, true)] }

/-- The state of the read-task once `recv` has returned bytes and they are stored: the
mutex is free again and the record has been accessed twice. -/
def HttpServer.received (fd : Int) (conn : Connection) (s : HttpServer) : HttpServer :=
  { s with connections := umap_set s.connections fd conn, mutex_held := false,
           trace := s.trace ++ [.record fd, .record fd] }

/-- The read-task is waiting for more input on `fd` with `buffered` bytes stored: the
record is in the registry, satisfies the buffer invariant and holds these bytes, and
the mutex is free. -/
def HttpServer.waiting (fd : Int) (buffered : Str) (s : HttpServer) : Prop :=
  ∃ conn, umap_find s.connections fd = some conn ∧ conn.buffer_ok ∧
    conn.request_data = buffered ∧ s.mutex_held = false

/-- The read-task run once per chunk, in order: each run is triggered by the read event
that follows the re-arming of the run before. -/
def HttpServer.feed (ord : IterOrder) (fd : Int) : List Str → HttpServer → HttpServer
  | [], s => s
  | chunk :: rest, s =>
    HttpServer.feed ord fd rest (HttpServer.read_task ord fd (.data chunk) s).state

/-! ## The worker pool (`ThreadPool.cpp`) -/

/-- A queued `std::function<void()>`, acting on the state `σ` it captured: it returns
normally with a new state, or it throws `ε`. -/
abbrev PoolTask (σ ε : Type) := σ → Except ε σ

/-- The fields of the class `ThreadPool` that `worker_thread` reads. -/
structure ThreadPool (σ ε : Type) where
  /-- The field `tasks_`, front first. -/
  tasks : List (PoolTask σ ε)
  /-- The field `stop_`. -/
  stop : Bool

/-- How a call of `worker_thread` goes on a queue that receives no further task. -/
inductive WorkerEnd (σ ε : Type) where
  /-- The `return` of the loop: `stop_` is set and the queue is empty. -/
  | exited (s : σ)
  /-- The worker sleeps in `condition_.wait`: the queue is empty and `stop_` is not set. -/
  | waiting (s : σ)
  /-- The call `task()` threw `e`, which left `worker_thread`; `queued` are the tasks
  that were still in the queue. -/
  | escaped (e : ε) (queued : List (PoolTask σ ε))

/-- The loop of `worker_thread` on the queue: wait for `stop_ || !tasks_.empty()`,
return when `stop_ && tasks_.empty()`, otherwise pop the front task and call it. The
call `task()` stands in no `try` block. -/
def ThreadPool.worker_loop {σ ε : Type} (stop : Bool) :
    List (PoolTask σ ε) → σ → WorkerEnd σ ε
  | [], s => if stop then .exited s else .waiting s
  | task :: tasks, s =>
    match task s with
    | .ok s1 => ThreadPool.worker_loop stop tasks s1
    | .error e => .escaped e tasks

/-- The method `worker_thread()`. -/
def ThreadPool.worker_thread {σ ε : Type} (pool : ThreadPool σ ε) (s : σ) : WorkerEnd σ ε :=
  ThreadPool.worker_loop pool.stop pool.tasks s

/-- The state after the tasks have run one after the other, when each of them returns
normally; `none` when one of them throws. -/
def spec_run_tasks {σ ε : Type} : List (PoolTask σ ε) → σ → Option σ
  | [], s => some s
  | task :: tasks, s =>
    match task s with
    | .ok s1 => spec_run_tasks tasks s1
    | .error _ => none

/-- A task that throws. -/
def raising_task : PoolTask Nat Str := fun _ => .error "boom".toList

/-- A task that counts its runs. -/
def counting_task : PoolTask Nat Str := fun n => .ok (n + 1)

/-! ## Definitions used by the decoder input contract -/

/-- Whether an effect is an entry into `process_request`. -/
def Effect.is_process : Effect → Bool
  | .process _ _ => true
  | _ => false

/-- An occurrence of `needle` starts at position `q` of `s`. -/
def spec_occurs_at (needle s : Str) (q : Nat) : Prop :=
  needle <+: s.drop q

/-- The request head of the scenario `GET /` with keep-alive. -/
def get_head : Str := "GET / HTTP/1.1\r\nHost: x\r\n\r\n".toList

/-- The request head of the scenario `GET /missing` with `Connection: close`. -/
def close_head : Str :=
  "GET /missing HTTP/1.1\r\nHost: x\r\nConnection: close\r\n\r\n".toList

/-! # Theorems -/

/-- The entries of the header map serialised by `build_response`. -/
theorem HttpResponse.response_headers (body : Str) (keep_alive : Bool) :
    umap_set (umap_set (HttpResponse.get_default_headers keep_alive) "Content-Length".toList
      (to_string body.length)) "Content-Type".toList "text/html; charset=utf-8".toList =
    [("Server".toList, "High-Performance-HTTP-Server/1.0".toList),
     ("Connection".toList, if keep_alive then "keep-alive".toList else "close".toList)] ++
    (if keep_alive then [("Keep-Alive".toList, "timeout=5, max=1000".toList)] else []) ++
    [("Content-Length".toList, to_string body.length),
     ("Content-Type".toList, "text/html; charset=utf-8".toList)] := by
  cases keep_alive <;> simp [HttpResponse.get_default_headers, umap_set]

/-- The reason phrase of the code is the one the specification lists. -/
theorem HttpResponse.get_status_message_eq (code : Nat) :
    HttpResponse.get_status_message code = spec_reason code := by
  unfold HttpResponse.get_status_message spec_reason
  split <;> simp_all

/-- The serialised entries of the header map are the listed lines, up to order. -/
theorem HttpResponse.header_lines_perm (body : Str) (keep_alive : Bool) :
    List.Perm
      ((umap_set (umap_set (HttpResponse.get_default_headers keep_alive) "Content-Length".toList
        (to_string body.length)) "Content-Type".toList
          "text/html; charset=utf-8".toList).map HttpResponse.emit_header)
      (spec_header_lines body keep_alive) := by
  rw [HttpResponse.response_headers]
  cases keep_alive
  · simp [spec_header_lines, HttpResponse.emit_header, crlf]
  · simp only [spec_header_lines, HttpResponse.emit_header, crlf, if_true, List.map_append,
      List.map_cons, List.map_nil, List.cons_append, List.nil_append]
    refine List.Perm.cons _ (List.Perm.cons _ ?_)
    have h := @List.perm_append_comm Str
      ["Keep-Alive".toList ++ ": ".toList ++ "timeout=5, max=1000".toList ++ ['\r', '\n']]
      ["Content-Length".toList ++ ": ".toList ++ to_string body.length ++ ['\r', '\n'],
        "Content-Type".toList ++ ": ".toList ++ "text/html; charset=utf-8".toList ++
          ['\r', '\n']]
    simpa using h

/-- Among the listed lines only the Content-Length line starts with `Content-Length:`. -/
theorem spec_header_lines_content_length (body : Str) (keep_alive : Bool) :
    (spec_header_lines body keep_alive).filter
        (fun l => "Content-Length:".toList.isPrefixOf l) =
      ["Content-Length: ".toList ++ to_string body.length ++ "\r\n".toList] := by
  cases keep_alive <;> simp [spec_header_lines, List.filter, List.isPrefixOf]

/-- The layout of a serialised response: status line, the listed header lines in some
order, CRLF, body. -/
theorem HttpResponse.build_response_format (ord : IterOrder) (code : Nat) (body : Str)
    (keep_alive : Bool) :
    ∃ lines : List Str,
      List.Perm lines (spec_header_lines body keep_alive) ∧
      HttpResponse.build_response ord code body keep_alive =
        "HTTP/1.1 ".toList ++ to_string code ++ " ".toList ++ spec_reason code ++
          "\r\n".toList ++ lines.flatten ++ "\r\n".toList ++ body ∧
      lines.filter (fun l => "Content-Length:".toList.isPrefixOf l) =
        ["Content-Length: ".toList ++ to_string body.length ++ "\r\n".toList] := by
  refine ⟨((ord.run (umap_set (umap_set (HttpResponse.get_default_headers keep_alive)
    "Content-Length".toList (to_string body.length)) "Content-Type".toList
    "text/html; charset=utf-8".toList)).map HttpResponse.emit_header), ?_, ?_, ?_⟩
  · exact ((ord.perm _).map _).trans (HttpResponse.header_lines_perm body keep_alive)
  · simp [HttpResponse.build_response, HttpResponse.get_status_message_eq, crlf]
  · have hp := (((ord.perm _).map HttpResponse.emit_header).trans
      (HttpResponse.header_lines_perm body keep_alive)).filter
      (fun l => "Content-Length:".toList.isPrefixOf l)
    rw [spec_header_lines_content_length] at hp
    exact List.perm_singleton.mp hp

/-- C1: for every status code, body and keep-alive flag (and every iteration order of
the header map), `build_response` is the status line `HTTP/1.1 <code> <reason>` CRLF,
then a header block, then CRLF, then the body verbatim; the header block is a
permutation of the lines Server, Connection (keep-alive or close), Content-Length
(decimal body length), Content-Type, plus Keep-Alive exactly when `keep_alive`; the
only line starting with `Content-Length:` carries the body length. -/
theorem C1_build_response_format (ord : IterOrder) (code : Nat) (body : Str)
    (keep_alive : Bool) :
    ∃ lines : List Str,
      List.Perm lines (spec_header_lines body keep_alive) ∧
      HttpResponse.build_response ord code body keep_alive =
        "HTTP/1.1 ".toList ++ to_string code ++ " ".toList ++ spec_reason code ++
          "\r\n".toList ++ lines.flatten ++ "\r\n".toList ++ body ∧
      lines.filter (fun l => "Content-Length:".toList.isPrefixOf l) =
        ["Content-Length: ".toList ++ to_string body.length ++ "\r\n".toList] :=
  HttpResponse.build_response_format ord code body keep_alive

example : HttpRequest.parse "POST / HTTP/1.1\r\nHost: x\r\n\r\n".toList HttpRequest.fresh =
    some ⟨"POST".toList, "/".toList, "HTTP/1.1".toList, [("host".toList, "x".toList)], [], true⟩ := by
  decide

example : HttpRequest.parse "GET  /a\tHTTP/1.0 extra\r\nHost :  x y \t\r\nHOST:z\r\nbad line\r\nConnection:Keep-Alive\r\n\r\nIgnored: 1\r\n".toList HttpRequest.fresh =
    some ⟨"GET".toList, "/a".toList, "HTTP/1.0".toList,
      [("host".toList, "z".toList), ("connection".toList, "Keep-Alive".toList)], [], true⟩ := by
  decide

example : HttpRequest.parse "BROKEN REQUEST\r\n\r\n".toList HttpRequest.fresh = none := by
  decide

/-- A successful `parse` went through the three extractions and the header loop. -/
theorem HttpRequest.parse_eq_some (raw : Str) (req0 req : HttpRequest)
    (h : HttpRequest.parse raw req0 = some req) :
    ∃ line stream method s1 path s2 version s3,
      getline raw = some (line, stream) ∧
      extract_word (pop_cr line) = some (method, s1) ∧
      extract_word s1 = some (path, s2) ∧
      extract_word s2 = some (version, s3) ∧
      req = { method := method, path := path, version := version,
              headers := parse_headers stream.length stream req0.headers,
              body := req0.body,
              keep_alive :=
                tolower (match umap_find (parse_headers stream.length stream req0.headers)
                    "connection".toList with
                  | some v => v
                  | none => []) == "keep-alive".toList ||
                (version == "HTTP/1.1".toList &&
                  tolower (match umap_find (parse_headers stream.length stream req0.headers)
                      "connection".toList with
                    | some v => v
                    | none => []) != "close".toList) } := by
  unfold HttpRequest.parse at h
  split at h
  · exact absurd h (by simp)
  · rename_i line stream hg
    split at h
    · exact absurd h (by simp)
    · rename_i method s1 h1
      split at h
      · exact absurd h (by simp)
      · rename_i path s2 h2
        split at h
        · exact absurd h (by simp)
        · rename_i version s3 h3
          refine ⟨line, stream, method, s1, path, s2, version, s3, hg, h1, h2, h3, ?_⟩
          simp only [Option.some.injEq] at h
          rw [← h]
          rfl

/-- C2: when `parse` succeeds on a freshly constructed request, `keep_alive` is
`c == "keep-alive" || (version == "HTTP/1.1" && c != "close")` for `c` the lowercased
value stored under `connection` (empty when absent); so without a stored Connection
header it is true for HTTP/1.1 and false for HTTP/1.0, and a stored `close` on HTTP/1.1
gives false. -/
theorem C2_keep_alive_rule (raw : Str) (req : HttpRequest)
    (h : HttpRequest.parse raw HttpRequest.fresh = some req) :
    req.keep_alive =
      (decide (tolower (req.get_header "connection".toList) = "keep-alive".toList) ||
        (decide (req.version = "HTTP/1.1".toList) &&
          decide (tolower (req.get_header "connection".toList) ≠ "close".toList))) ∧
    (umap_find req.headers "connection".toList = none →
      req.version = "HTTP/1.1".toList → req.keep_alive = true) ∧
    (umap_find req.headers "connection".toList = none →
      req.version = "HTTP/1.0".toList → req.keep_alive = false) ∧
    (tolower (req.get_header "connection".toList) = "close".toList →
      req.version = "HTTP/1.1".toList → req.keep_alive = false) := by
  obtain ⟨line, stream, method, s1, path, s2, version, s3, -, -, -, -, hreq⟩ :=
    HttpRequest.parse_eq_some raw HttpRequest.fresh req h
  have key : req.keep_alive =
      (decide (tolower (req.get_header "connection".toList) = "keep-alive".toList) ||
        (decide (req.version = "HTTP/1.1".toList) &&
          decide (tolower (req.get_header "connection".toList) ≠ "close".toList))) := by
    subst hreq
    rw [Bool.eq_iff_iff]
    simp [HttpRequest.get_header, bne]
  have habs : umap_find req.headers "connection".toList = none →
      tolower (req.get_header "connection".toList) = [] := by
    intro hnone
    simp only [HttpRequest.get_header, hnone]
    rfl
  refine ⟨key, ?_, ?_, ?_⟩
  · intro hnone hv
    rw [key, habs hnone, hv]
    decide
  · intro hnone hv
    rw [key, habs hnone, hv]
    decide
  · intro hc hv
    rw [key, hc, hv]
    decide

/-- C2 at `GET / HTTP/1.0` with a Host header only: `parse` succeeds and `keep_alive`
is false. -/
theorem C2_keep_alive_rule_witness :
    HttpRequest.parse "GET / HTTP/1.0\r\nHost: x\r\n\r\n".toList HttpRequest.fresh =
      some ⟨"GET".toList, "/".toList, "HTTP/1.0".toList, [("host".toList, "x".toList)], [],
        false⟩ ∧
    (⟨"GET".toList, "/".toList, "HTTP/1.0".toList, [("host".toList, "x".toList)], [],
        false⟩ : HttpRequest).keep_alive = false :=
  ⟨by decide,
   (C2_keep_alive_rule "GET / HTTP/1.0\r\nHost: x\r\n\r\n".toList
    ⟨"GET".toList, "/".toList, "HTTP/1.0".toList, [("host".toList, "x".toList)], [], false⟩
    (by decide)).2.2.1 (by decide) (by decide)⟩

/-- The pieces of a split: the bytes before the first separator, then the pieces of what
follows it. -/
theorem splitOnP_takeWhile (p : Char → Bool) (s : Str) :
    s.splitOnP p = s.takeWhile (fun x => !p x) ::
      (match s.dropWhile (fun x => !p x) with
       | [] => []
       | _ :: t => t.splitOnP p) := by
  induction s with
  | nil => simp
  | cons x xs ih =>
    rw [List.splitOnP_cons]
    by_cases hx : p x = true
    · simp [hx]
    · simp only [hx, Bool.false_eq_true, if_false]
      rw [ih]
      simp [hx]

/-- Leading whitespace contributes no token. -/
theorem spec_tokens_dropWhile (s : Str) :
    spec_tokens (s.dropWhile isspace) = spec_tokens s := by
  induction s with
  | nil => rfl
  | cons x xs ih =>
    by_cases hx : isspace x = true
    · rw [List.dropWhile_cons_of_pos hx, ih]
      simp [spec_tokens, List.splitOnP_cons, hx]
    · rw [List.dropWhile_cons_of_neg hx]

/-- A line that starts with a non-whitespace byte: its first token is its longest
whitespace-free start. -/
theorem spec_tokens_cons (c : Char) (s : Str) (hc : isspace c = false) :
    spec_tokens (c :: s) = (c :: s).takeWhile (fun x => !isspace x) ::
      spec_tokens ((c :: s).dropWhile (fun x => !isspace x)) := by
  have hsplit := splitOnP_takeWhile isspace (c :: s)
  unfold spec_tokens
  rw [hsplit]
  have hne : ((c :: s).takeWhile (fun x => !isspace x)).isEmpty = false := by
    simp [List.takeWhile, hc]
  rw [List.filter_cons_of_pos (by simp [hne])]
  congr 1
  cases hd : (c :: s).dropWhile (fun x => !isspace x) with
  | nil => simp
  | cons d t =>
    have hdsp : isspace d = true := by
      have hmem := List.head_dropWhile_not (fun x => !isspace x) (c :: s)
        (by rw [hd]; simp)
      simp only [hd, List.head_cons] at hmem
      simpa using hmem
    simp [List.splitOnP_cons, hdsp]

/-- Word extraction reads the tokens one by one. -/
theorem spec_tokens_extract_word (s : Str) :
    spec_tokens s =
      match extract_word s with
      | none => []
      | some (w, rest) => w :: spec_tokens rest := by
  rw [← spec_tokens_dropWhile]
  unfold extract_word
  cases hd : s.dropWhile isspace with
  | nil => rfl
  | cons c t =>
    have hc : isspace c = false := by
      have hmem := List.head_dropWhile_not isspace s (by rw [hd]; simp)
      simp only [hd, List.head_cons] at hmem
      simpa using hmem
    simp only []
    exact spec_tokens_cons c t hc

/-- C3: for every input (and every request object passed in), `parse` fails exactly when
the first line (text before the first LF, one trailing CR removed) has fewer than three
whitespace-separated tokens; when it succeeds, method, path and version are the first
three tokens of that line. -/
theorem C3_parse_request_line (raw : Str) (req0 : HttpRequest) :
    (HttpRequest.parse raw req0 = none ↔ (spec_tokens (spec_first_line raw)).length < 3) ∧
    ∀ req, HttpRequest.parse raw req0 = some req →
      [req.method, req.path, req.version] = (spec_tokens (spec_first_line raw)).take 3 := by
  cases raw with
  | nil =>
    refine ⟨?_, ?_⟩
    · simp [HttpRequest.parse, getline, spec_first_line, spec_tokens]
    · intro req h
      simp [HttpRequest.parse, getline] at h
  | cons c t =>
    have hline : pop_cr ((c :: t).takeWhile (fun x => x != '\n')) =
        spec_first_line (c :: t) := rfl
    have hg : getline (c :: t) = some ((c :: t).takeWhile (fun x => x != '\n'),
        ((c :: t).dropWhile (fun x => x != '\n')).drop 1) := rfl
    unfold HttpRequest.parse
    rw [hg]
    simp only []
    rw [hline, spec_tokens_extract_word (spec_first_line (c :: t))]
    cases h1 : extract_word (spec_first_line (c :: t)) with
    | none => simp
    | some r1 =>
      obtain ⟨method, s1⟩ := r1
      simp only []
      rw [spec_tokens_extract_word s1]
      cases h2 : extract_word s1 with
      | none => simp
      | some r2 =>
        obtain ⟨path, s2⟩ := r2
        simp only []
        rw [spec_tokens_extract_word s2]
        cases h3 : extract_word s2 with
        | none => simp
        | some r3 =>
          obtain ⟨version, s3⟩ := r3
          refine ⟨by simp, ?_⟩
          intro req h
          simp only [Option.some.injEq] at h
          rw [← h]
          simp

/-- C3 at `GET / HTTP/1.1`: the three tokens of the request line are returned. -/
theorem C3_parse_request_line_witness :
    HttpRequest.parse "GET / HTTP/1.1\r\n\r\n".toList HttpRequest.fresh =
      some ⟨"GET".toList, "/".toList, "HTTP/1.1".toList, [], [], true⟩ ∧
    ["GET".toList, "/".toList, "HTTP/1.1".toList] =
      (spec_tokens (spec_first_line "GET / HTTP/1.1\r\n\r\n".toList)).take 3 :=
  ⟨by decide,
   (C3_parse_request_line "GET / HTTP/1.1\r\n\r\n".toList HttpRequest.fresh).2
    ⟨"GET".toList, "/".toList, "HTTP/1.1".toList, [], [], true⟩ (by decide)⟩

/-! ### The header loop -/

/-- Lookup after an assignment. -/
theorem umap_find_set {κ ν : Type} [DecidableEq κ] (m : List (κ × ν)) (k : κ) (v : ν)
    (k1 : κ) :
    umap_find (umap_set m k v) k1 = if k = k1 then some v else umap_find m k1 := by
  induction m with
  | nil => simp [umap_set, umap_find]
  | cons e m ih =>
    obtain ⟨k0, v0⟩ := e
    by_cases h0 : k0 = k
    · subst h0
      by_cases h1 : k0 = k1 <;> simp [umap_set, umap_find, h1]
    · by_cases h1 : k0 = k1
      · subst h1
        have hne : ¬ k = k0 := fun h => h0 h.symm
        simp [umap_set, umap_find, h0, hne]
      · simp [umap_set, umap_find, h0, h1, ih]

/-- A key is stored exactly when its lookup succeeds. -/
theorem umap_find_isSome {κ ν : Type} [DecidableEq κ] (m : List (κ × ν)) (k : κ) :
    (umap_find m k).isSome = true ↔ k ∈ m.map Prod.fst := by
  induction m with
  | nil => simp [umap_find]
  | cons e m ih =>
    obtain ⟨k0, v0⟩ := e
    by_cases h0 : k0 = k
    · simp [umap_find, h0]
    · have hne : ¬ k = k0 := fun h => h0 h.symm
      simp [umap_find, h0, hne, ih]

/-- Assignment keeps the keys distinct. -/
theorem umap_set_nodup {κ ν : Type} [DecidableEq κ] (m : List (κ × ν)) (k : κ) (v : ν)
    (h : (m.map Prod.fst).Nodup) :
    ((umap_set m k v).map Prod.fst).Nodup := by
  induction m with
  | nil => simp [umap_set]
  | cons e m ih =>
    obtain ⟨k0, v0⟩ := e
    simp only [List.map_cons, List.nodup_cons] at h
    by_cases h0 : k0 = k
    · simp [umap_set, h0] 
      subst h0
      simpa using h
    · simp only [umap_set, h0, if_false, List.map_cons, List.nodup_cons]
      refine ⟨?_, ih h.2⟩
      intro hmem
      have h1 := (umap_find_isSome (umap_set m k v) k0).mpr hmem
      rw [umap_find_set] at h1
      have hne : ¬ k = k0 := fun h => h0 h.symm
      simp only [hne, if_false] at h1
      exact h.1 ((umap_find_isSome m k0).mp h1)

/-- Reading a line that is followed by LF. -/
theorem getline_append (line rest : Str) (h : ∀ c ∈ line, c ≠ '\n') :
    getline (line ++ '\n' :: rest) = some (line, rest) := by
  have htake : (line ++ '\n' :: rest).takeWhile (fun c => c != '\n') = line := by
    induction line with
    | nil => simp
    | cons a l ih =>
      have ha : a ≠ '\n' := h a (by simp)
      simp only [List.cons_append]
      rw [List.takeWhile_cons_of_pos (by simpa using ha)]
      rw [ih (fun c hc => h c (List.mem_cons_of_mem _ hc))]
  have hdrop : ∀ (u : Str), (∀ c ∈ u, c ≠ '\n') →
      (u ++ '\n' :: rest).dropWhile (fun c => c != '\n') = '\n' :: rest := by
    intro u hu
    induction u with
    | nil => simp
    | cons a l ih =>
      have ha : a ≠ '\n' := hu a (by simp)
      simp only [List.cons_append]
      rw [List.dropWhile_cons_of_pos (by simpa using ha)]
      exact ih (fun c hc => hu c (List.mem_cons_of_mem _ hc))
  cases hl : line ++ '\n' :: rest with
  | nil => simp at hl
  | cons a l =>
    have hg : getline (a :: l) = some ((a :: l).takeWhile (fun c => c != '\n'),
        ((a :: l).dropWhile (fun c => c != '\n')).drop 1) := rfl
    rw [hg, ← hl, htake, hdrop line h]
    rfl

/-- A trailing CR is removed. -/
theorem pop_cr_append (line : Str) : pop_cr (line ++ ['\r']) = line := by
  simp [pop_cr]

/-- Extraction of a word that is followed by the end of input or by whitespace. -/
theorem extract_word_append (w rest : Str) (hne : w ≠ [])
    (hw : ∀ c ∈ w, isspace c = false)
    (hrest : ∀ c, rest.head? = some c → isspace c = true) :
    extract_word (w ++ rest) = some (w, rest) := by
  obtain ⟨a, l, rfl⟩ := List.exists_cons_of_ne_nil hne
  have ha : isspace a = false := hw a (by simp)
  have htake : ∀ (u : Str), (∀ c ∈ u, isspace c = false) →
      (u ++ rest).takeWhile (fun x => !isspace x) = u := by
    intro u hu
    induction u with
    | nil =>
      cases rest with
      | nil => rfl
      | cons d t => simp [List.takeWhile, hrest d rfl]
    | cons b u ih =>
      simp only [List.cons_append]
      rw [List.takeWhile_cons_of_pos (by simp [hu b (by simp)])]
      rw [ih (fun c hc => hu c (List.mem_cons_of_mem _ hc))]
  have hdrop : ∀ (u : Str), (∀ c ∈ u, isspace c = false) →
      (u ++ rest).dropWhile (fun x => !isspace x) = rest := by
    intro u hu
    induction u with
    | nil =>
      cases rest with
      | nil => rfl
      | cons d t => simp [List.dropWhile, hrest d rfl]
    | cons b u ih =>
      simp only [List.cons_append]
      rw [List.dropWhile_cons_of_pos (by simp [hu b (by simp)])]
      exact ih (fun c hc => hu c (List.mem_cons_of_mem _ hc))
  unfold extract_word
  have hskip : ((a :: l) ++ rest).dropWhile isspace = (a :: l) ++ rest := by
    simp [List.dropWhile, ha]
  rw [hskip]
  simp only [List.cons_append]
  have h1 := htake (a :: l) hw
  have h2 := hdrop (a :: l) hw
  simp only [List.cons_append] at h1 h2
  rw [h1, h2]

/-- Extraction skips a leading space. -/
theorem extract_word_space (s : Str) : extract_word (' ' :: s) = extract_word s := by
  unfold extract_word
  rw [List.dropWhile_cons_of_pos (by decide)]

/-- Trimming leaves a text alone that neither starts nor ends with a space or tab. -/
theorem trim_eq_self (s : Str) (hhead : ∀ c ∈ s.head?, is_blank c = false)
    (hlast : ∀ c ∈ s.getLast?, is_blank c = false) : trim s = s := by
  unfold trim
  have h1 : s.dropWhile is_blank = s := by
    cases s with
    | nil => rfl
    | cons a l =>
      have ha : is_blank a = false := hhead a (by simp)
      simp [List.dropWhile, ha]
  rw [h1, List.rdropWhile_eq_self_iff]
  intro hl
  have := hlast (s.getLast hl) (by simp [List.getLast?_eq_getLast, hl])
  simp [this]

/-- Trimming removes a leading space. -/
theorem trim_space (s : Str) : trim (' ' :: s) = trim s := by
  unfold trim
  rw [List.dropWhile_cons_of_pos (by decide)]

/-- The header loop on one well-formed line stores the trimmed value under the
lowercased name. -/
theorem header_line_pair (h : Str × Str) (headers : HeaderMap) (hok : spec_header_ok h) :
    header_line (h.1 ++ ": ".toList ++ h.2 ++ ['\r']) headers =
      umap_set headers (tolower h.1) (trim h.2) := by
  obtain ⟨name, value⟩ := h
  obtain ⟨-, hchars, hhead, hlast, -⟩ := hok
  simp only at hchars hhead hlast
  have htake : ∀ (u : Str), (∀ c ∈ u, c ≠ ':') →
      (u ++ ':' :: ' ' :: value).takeWhile (fun c => c != ':') = u := by
    intro u hu
    induction u with
    | nil => simp
    | cons a l ih =>
      simp only [List.cons_append]
      rw [List.takeWhile_cons_of_pos (by simpa using hu a (by simp))]
      rw [ih (fun c hc => hu c (List.mem_cons_of_mem _ hc))]
  have hdrop : ∀ (u : Str), (∀ c ∈ u, c ≠ ':') →
      (u ++ ':' :: ' ' :: value).dropWhile (fun c => c != ':') = ':' :: ' ' :: value := by
    intro u hu
    induction u with
    | nil => simp
    | cons a l ih =>
      simp only [List.cons_append]
      rw [List.dropWhile_cons_of_pos (by simpa using hu a (by simp))]
      exact ih (fun c hc => hu c (List.mem_cons_of_mem _ hc))
  have hshape : name ++ ": ".toList ++ value = name ++ ':' :: ' ' :: value := by
    simp
  unfold header_line
  simp only [pop_cr_append]
  rw [hshape, if_pos (by simp), htake name (fun c hc => (hchars c hc).1),
    hdrop name (fun c hc => (hchars c hc).1)]
  simp only [List.drop_succ_cons, List.drop_zero]
  rw [trim_eq_self name hhead hlast, trim_space]

/-- The header loop on the lines of well-formed pairs followed by the blank line: each
pair is stored in turn. -/
theorem parse_headers_text (hdrs : List (Str × Str)) (hok : ∀ h ∈ hdrs, spec_header_ok h) :
    ∀ (fuel : Nat) (headers : HeaderMap), hdrs.length < fuel →
      parse_headers fuel ((hdrs.map spec_header_text).flatten ++ "\r\n".toList) headers =
        hdrs.foldl (fun m h => umap_set m (tolower h.1) (trim h.2)) headers := by
  induction hdrs with
  | nil =>
    intro fuel headers hf
    obtain ⟨f, rfl⟩ : ∃ f, fuel = f + 1 := ⟨fuel - 1, by omega⟩
    have hg : getline "\r\n".toList = some (['\r'], []) := by decide
    show parse_headers (f + 1) "\r\n".toList headers = headers
    simp only [parse_headers, hg]
    simp
  | cons h t ih =>
    intro fuel headers hf
    obtain ⟨f, rfl⟩ : ∃ f, fuel = f + 1 := ⟨fuel - 1, by omega⟩
    have hokh := hok h (by simp)
    obtain ⟨hne, hchars, -, -, hval⟩ := hokh
    have hshape : ((h :: t).map spec_header_text).flatten ++ "\r\n".toList =
        (h.1 ++ ": ".toList ++ h.2 ++ ['\r']) ++
          '\n' :: ((t.map spec_header_text).flatten ++ "\r\n".toList) := by
      simp [spec_header_text]
    have hnl : ∀ c ∈ h.1 ++ ": ".toList ++ h.2 ++ ['\r'], c ≠ '\n' := by
      intro c hc
      simp only [List.mem_append, List.mem_singleton] at hc
      rcases hc with ((hc | hc) | hc) | hc
      · exact (hchars c hc).2.2
      · have : c = ':' ∨ c = ' ' := by simpa using hc
        rcases this with rfl | rfl <;> decide
      · exact (hval c hc).2
      · subst hc; decide
    have hg := getline_append (h.1 ++ ": ".toList ++ h.2 ++ ['\r'])
      ((t.map spec_header_text).flatten ++ "\r\n".toList) hnl
    obtain ⟨a, l, hal⟩ := List.exists_cons_of_ne_nil hne
    have hnot : ¬ (h.1 ++ ": ".toList ++ h.2 ++ ['\r'] = ['\r'] ∨
        h.1 ++ ": ".toList ++ h.2 ++ ['\r'] = []) := by
      rw [hal]
      simp
    rw [hshape]
    simp only [parse_headers, hg, hnot, if_false]
    rw [header_line_pair h headers (hok h (by simp))]
    rw [ih (fun x hx => hok x (List.mem_cons_of_mem _ hx)) f _
      (by simp only [List.length_cons] at hf; omega)]
    rfl

/-- The loop never runs out of fuel: more fuel than the unread input changes nothing. -/
theorem parse_headers_fuel : ∀ (fuel : Nat) (stream : Str) (headers : HeaderMap),
    stream.length ≤ fuel →
      parse_headers fuel stream headers = parse_headers stream.length stream headers := by
  have hlen : ∀ (s line rest : Str), getline s = some (line, rest) →
      rest.length < s.length := by
    intro s line rest hg
    cases s with
    | nil => simp [getline] at hg
    | cons a l =>
      simp only [getline, Option.some.injEq, Prod.mk.injEq] at hg
      rw [← hg.2]
      have h1 := (List.dropWhile_suffix (fun c => c != '\n') (l := a :: l)).length_le
      simp only [List.length_drop]
      simp only [List.length_cons] at h1 ⊢
      by_cases hd : (List.dropWhile (fun c => c != '\n') (a :: l)).length = 0
      · omega
      · omega
  have main : ∀ (n : Nat) (fuel : Nat) (stream : Str) (headers : HeaderMap),
      stream.length ≤ n → n ≤ fuel →
        parse_headers fuel stream headers = parse_headers n stream headers := by
    intro n
    induction n with
    | zero =>
      intro fuel stream headers hs _
      have : stream = [] := List.length_eq_zero.mp (by omega)
      subst this
      cases fuel <;> simp [parse_headers, getline]
    | succ n ih =>
      intro fuel stream headers hs hf
      obtain ⟨f, rfl⟩ : ∃ f, fuel = f + 1 := ⟨fuel - 1, by omega⟩
      simp only [parse_headers]
      cases hg : getline stream with
      | none => rfl
      | some r =>
        obtain ⟨line, rest⟩ := r
        simp only []
        split
        · rfl
        · exact ih f rest _ (by have := hlen stream line rest hg; omega) (by omega)
  intro fuel stream headers h
  exact main stream.length fuel stream headers (le_refl _) h

/-- Lookup in the map the loop builds: the trimmed value of the last pair stored under
the key, or what the map held before. -/
theorem umap_find_foldl (hdrs : List (Str × Str)) (headers : HeaderMap) (k : Str) :
    umap_find (hdrs.foldl (fun m h => umap_set m (tolower h.1) (trim h.2)) headers) k =
      match (hdrs.filter (fun h => tolower h.1 == k)).getLast? with
      | some h => some (trim h.2)
      | none => umap_find headers k := by
  induction hdrs using List.reverseRecOn with
  | nil => rfl
  | append_singleton t h ih =>
    rw [List.foldl_append, List.foldl_cons, List.foldl_nil, umap_find_set, List.filter_append]
    by_cases hk : tolower h.1 = k
    · simp [List.filter, hk]
    · simp only [hk, if_false, ih]
      have : (tolower h.1 == k) = false := by simpa using hk
      simp [List.filter, this]

/-- The keys of the map the loop builds from an empty map. -/
theorem umap_keys_foldl (hdrs : List (Str × Str)) (k : Str) :
    k ∈ (hdrs.foldl (fun m h => umap_set m (tolower h.1) (trim h.2)) []).map Prod.fst ↔
      k ∈ hdrs.map (fun h => tolower h.1) := by
  rw [← umap_find_isSome, umap_find_foldl]
  cases hl : (hdrs.filter (fun h => tolower h.1 == k)).getLast? with
  | none =>
    have hnil : hdrs.filter (fun h => tolower h.1 == k) = [] := by
      simpa using hl
    simp only [umap_find, Option.isSome_none, Bool.false_eq_true, false_iff]
    intro hmem
    obtain ⟨h, hh, hk⟩ := List.mem_map.mp hmem
    have : h ∈ hdrs.filter (fun h => tolower h.1 == k) :=
      List.mem_filter.mpr ⟨hh, by simpa using hk⟩
    rw [hnil] at this
    exact absurd this (List.not_mem_nil _)
  | some h =>
    have hmem : h ∈ hdrs.filter (fun h => tolower h.1 == k) := List.mem_of_getLast?_eq_some hl
    obtain ⟨hh, hk⟩ := List.mem_filter.mp hmem
    simp only [Option.isSome_some, true_iff]
    exact List.mem_map.mpr ⟨h, hh, by simpa using hk⟩

/-- C4 (round trip of the decoder): for method, path and version that are non-empty and
free of whitespace and for header pairs that satisfy `spec_header_ok`, parsing
`method SP path SP version CRLF`, then `name: value CRLF` per pair, then CRLF succeeds
on a fresh request; it yields that method, path and version; the keys of the header map
are exactly the lowercased names; and `get_header` on a key gives the trimmed value of
the last pair whose lowercased name is that key. -/
theorem C4_decoder_round_trip (method path version : Str) (hdrs : List (Str × Str))
    (hm : method ≠ [] ∧ ∀ c ∈ method, isspace c = false)
    (hp : path ≠ [] ∧ ∀ c ∈ path, isspace c = false)
    (hv : version ≠ [] ∧ ∀ c ∈ version, isspace c = false)
    (hok : ∀ h ∈ hdrs, spec_header_ok h) :
    ∃ req, HttpRequest.parse (spec_request_text method path version hdrs)
        HttpRequest.fresh = some req ∧
      req.method = method ∧ req.path = path ∧ req.version = version ∧
      (∀ k, k ∈ req.headers.map Prod.fst ↔ k ∈ hdrs.map (fun h => tolower h.1)) ∧
      (∀ k h, (hdrs.filter (fun h => tolower h.1 == k)).getLast? = some h →
        req.get_header k = trim h.2) := by
  have hshape : spec_request_text method path version hdrs =
      (method ++ ' ' :: (path ++ ' ' :: (version ++ ['\r']))) ++
        '\n' :: ((hdrs.map spec_header_text).flatten ++ "\r\n".toList) := by
    simp [spec_request_text]
  have hnl : ∀ c ∈ method ++ ' ' :: (path ++ ' ' :: (version ++ ['\r'])), c ≠ '\n' := by
    intro c hc hcn
    subst hcn
    simp only [List.mem_append, List.mem_cons, List.mem_singleton] at hc
    rcases hc with hc | hc | hc | hc | hc | hc
    · exact absurd (hm.2 _ hc) (by decide)
    · exact absurd hc (by decide)
    · exact absurd (hp.2 _ hc) (by decide)
    · exact absurd hc (by decide)
    · exact absurd (hv.2 _ hc) (by decide)
    · exact absurd hc (by decide)
  have hg := getline_append _ ((hdrs.map spec_header_text).flatten ++ "\r\n".toList) hnl
  have hpop : pop_cr (method ++ ' ' :: (path ++ ' ' :: (version ++ ['\r']))) =
      method ++ ' ' :: (path ++ ' ' :: version) := by
    have := pop_cr_append (method ++ ' ' :: (path ++ ' ' :: version))
    simpa using this
  have h1 : extract_word (method ++ ' ' :: (path ++ ' ' :: version)) =
      some (method, ' ' :: (path ++ ' ' :: version)) :=
    extract_word_append method _ hm.1 hm.2 (by simp; decide)
  have h2 : extract_word (' ' :: (path ++ ' ' :: version)) = some (path, ' ' :: version) := by
    rw [extract_word_space]
    exact extract_word_append path _ hp.1 hp.2 (by simp; decide)
  have h3 : extract_word (' ' :: version) = some (version, []) := by
    rw [extract_word_space]
    have := extract_word_append version [] hv.1 hv.2 (by simp)
    simpa using this
  have hloop := parse_headers_text hdrs hok
    ((hdrs.map spec_header_text).flatten ++ "\r\n".toList).length [] (by
      have hlen : ∀ (l : List (Str × Str)), l.length ≤ ((l.map spec_header_text).flatten).length := by
        intro l
        induction l with
        | nil => simp
        | cons a l ih =>
          simp only [List.map_cons, List.flatten_cons, List.length_append, List.length_cons]
          have : 1 ≤ (spec_header_text a).length := by
            simp only [spec_header_text, List.length_append]
            have h2 : ("\r\n".toList).length = 2 := by decide
            omega
          omega
      have := hlen hdrs
      simp only [List.length_append]
      have h2 : ("\r\n".toList).length = 2 := by decide
      omega)
  have hparse : ∃ ka, HttpRequest.parse (spec_request_text method path version hdrs)
      HttpRequest.fresh = some ⟨method, path, version,
        parse_headers ((hdrs.map spec_header_text).flatten ++ "\r\n".toList).length
          ((hdrs.map spec_header_text).flatten ++ "\r\n".toList) [], [], ka⟩ := by
    rw [hshape]
    unfold HttpRequest.parse
    rw [hg]
    simp only [hpop, h1, h2, h3]
    exact ⟨_, rfl⟩
  obtain ⟨ka, hparse⟩ := hparse
  refine ⟨_, hparse, rfl, rfl, rfl, ?_, ?_⟩
  · intro k
    simp only [hloop]
    exact umap_keys_foldl hdrs k
  · intro k h hlast
    simp only [HttpRequest.get_header, hloop, umap_find_foldl, hlast]

/-- C4 at `GET / HTTP/1.1` with the headers `Host:  a ` and `HOST: b`: the hypotheses
hold and the round trip goes through. -/
theorem C4_decoder_round_trip_witness :
    (∀ h ∈ [("Host".toList, " a\t".toList), ("HOST".toList, "b".toList)],
      spec_header_ok h) ∧
    ∃ req, HttpRequest.parse (spec_request_text "GET".toList "/".toList "HTTP/1.1".toList
        [("Host".toList, " a\t".toList), ("HOST".toList, "b".toList)])
        HttpRequest.fresh = some req ∧
      req.method = "GET".toList ∧ req.path = "/".toList ∧ req.version = "HTTP/1.1".toList ∧
      (∀ k, k ∈ req.headers.map Prod.fst ↔
        k ∈ [("Host".toList, " a\t".toList), ("HOST".toList, "b".toList)].map
          (fun h => tolower h.1)) ∧
      (∀ k h, ([("Host".toList, " a\t".toList), ("HOST".toList, "b".toList)].filter
          (fun h => tolower h.1 == k)).getLast? = some h →
        req.get_header k = trim h.2) :=
  ⟨by unfold spec_header_ok; decide,
   C4_decoder_round_trip "GET".toList "/".toList "HTTP/1.1".toList
    [("Host".toList, " a\t".toList), ("HOST".toList, "b".toList)]
    (by decide) (by decide) (by decide) (by unfold spec_header_ok; decide)⟩

/-! ### Status selection -/

/-- The seam answers with the welcome page for a GET of `/` or `/index.html` and with
an empty body otherwise. -/
theorem HttpServer.generate_response_eq (request : HttpRequest) :
    HttpServer.generate_response request =
      if request.method = "GET".toList ∧
        (request.path = "/".toList ∨ request.path = "/index.html".toList)
      then HttpServer.welcome_page else [] := by
  unfold HttpServer.generate_response
  by_cases hm : request.method = "GET".toList
  · by_cases hp : request.path = "/".toList ∨ request.path = "/index.html".toList
    · rw [if_neg (by simpa using hm), if_pos hp, if_pos ⟨hm, hp⟩]
    · rw [if_neg (by simpa using hm), if_neg hp, if_neg (fun h => hp h.2)]
  · rw [if_pos hm, if_neg (fun h => hm h.1)]

/-- The status and body chosen after a successful parse. -/
theorem HttpServer.select_response_cases (request : HttpRequest) :
    ((HttpServer.select_response request).1 = 200 ↔
      (request.method = "GET".toList ∧
        (request.path = "/".toList ∨ request.path = "/index.html".toList))) ∧
    ((HttpServer.select_response request).1 = 404 ↔
      (request.method = "GET".toList ∧
        ¬ (request.path = "/".toList ∨ request.path = "/index.html".toList))) ∧
    ((HttpServer.select_response request).1 = 400 ↔ request.method ≠ "GET".toList) ∧
    ((HttpServer.select_response request).1 = 200 ∨
      (HttpServer.select_response request).1 = 404 ∨
      (HttpServer.select_response request).1 = 400) ∧
    (HttpServer.select_response request).2 ≠ [] := by
  have hw : HttpServer.welcome_page.isEmpty = false := by decide
  have hw2 : HttpServer.welcome_page ≠ [] := by decide
  have hn : HttpServer.body_not_found ≠ [] := by decide
  have hb : HttpServer.body_method_not_allowed ≠ [] := by decide
  have he : ([] : Str).isEmpty = true := rfl
  by_cases hm : request.method = "GET".toList
  · by_cases hp : request.path = "/".toList ∨ request.path = "/index.html".toList
    · have hg : HttpServer.generate_response request = HttpServer.welcome_page := by
        rw [HttpServer.generate_response_eq, if_pos ⟨hm, hp⟩]
      have hs : HttpServer.select_response request = (200, HttpServer.welcome_page) := by
        unfold HttpServer.select_response
        simp only [hg]
        rw [if_neg (fun h => Bool.false_ne_true (hw ▸ h.1)),
          if_neg (fun h => Bool.false_ne_true (hw ▸ h))]
      rw [hs]
      exact ⟨⟨fun _ => ⟨hm, hp⟩, fun _ => rfl⟩, ⟨fun h => absurd h (by decide),
        fun h => absurd hp h.2⟩, ⟨fun h => absurd h (by decide), fun h => absurd hm h⟩,
        Or.inl rfl, hw2⟩
    · have hg : HttpServer.generate_response request = [] := by
        rw [HttpServer.generate_response_eq, if_neg (fun h => hp h.2)]
      have hs : HttpServer.select_response request = (404, HttpServer.body_not_found) := by
        unfold HttpServer.select_response
        simp only [hg]
        rw [if_pos ⟨he, hm⟩]
      rw [hs]
      exact ⟨⟨fun h => absurd h (by decide), fun h => absurd h.2 hp⟩,
        ⟨fun _ => ⟨hm, hp⟩, fun _ => rfl⟩,
        ⟨fun h => absurd h (by decide), fun h => absurd hm h⟩, Or.inr (Or.inl rfl), hn⟩
  · have hg : HttpServer.generate_response request = [] := by
      rw [HttpServer.generate_response_eq, if_neg (fun h => hm h.1)]
    have hs : HttpServer.select_response request =
        (400, HttpServer.body_method_not_allowed) := by
      unfold HttpServer.select_response
      simp only [hg]
      rw [if_neg (fun h => hm h.2), if_pos he]
    rw [hs]
    exact ⟨⟨fun h => absurd h (by decide), fun h => absurd h.1 hm⟩,
      ⟨fun h => absurd h (by decide), fun h => absurd h.1 hm⟩,
      ⟨fun _ => hm, fun _ => rfl⟩, Or.inr (Or.inr rfl), hb⟩

/-- The responses sent by `process_request` after a successful parse: one, built from
the chosen status and body with the keep-alive flag of the request. -/
theorem HttpServer.process_request_sent (ord : IterOrder) (client_fd : Int)
    (request_data : Str) (request : HttpRequest) (s : HttpServer)
    (hparse : HttpRequest.parse request_data HttpRequest.fresh = some request) :
    (HttpServer.process_request ord client_fd request_data s).state.sent =
      s.sent ++ [(client_fd, HttpResponse.build_response ord
        (HttpServer.select_response request).1 (HttpServer.select_response request).2
        request.keep_alive)] := by
  unfold HttpServer.process_request
  simp only [hparse]
  cases hheld : s.mutex_held <;> cases hfind : umap_find s.connections client_fd <;>
    cases hka : request.keep_alive <;>
    simp [HttpServer.lock, HttpServer.unlock, HttpServer.log, HttpServer.send_response,
      HttpServer.rearm, HttpServer.close_connection, HttpServer.sent, Outcome.and_then,
      Outcome.state, Effect.sent, hheld, hfind, List.filterMap_append]

/-- C5: after a successful parse, `process_request` sends one response, built from the
chosen status and body; the status is 200 exactly for a GET of `/` or `/index.html`, 404
exactly for a GET of another path, 400 exactly for a method other than `GET`; it is one
of these three; and the body is never empty. -/
theorem C5_status_selection (ord : IterOrder) (client_fd : Int) (request_data : Str)
    (request : HttpRequest) (s : HttpServer)
    (hparse : HttpRequest.parse request_data HttpRequest.fresh = some request) :
    (HttpServer.process_request ord client_fd request_data s).state.sent =
      s.sent ++ [(client_fd, HttpResponse.build_response ord
        (HttpServer.select_response request).1 (HttpServer.select_response request).2
        request.keep_alive)] ∧
    ((HttpServer.select_response request).1 = 200 ↔
      (request.method = "GET".toList ∧
        (request.path = "/".toList ∨ request.path = "/index.html".toList))) ∧
    ((HttpServer.select_response request).1 = 404 ↔
      (request.method = "GET".toList ∧
        ¬ (request.path = "/".toList ∨ request.path = "/index.html".toList))) ∧
    ((HttpServer.select_response request).1 = 400 ↔ request.method ≠ "GET".toList) ∧
    ((HttpServer.select_response request).1 = 200 ∨
      (HttpServer.select_response request).1 = 404 ∨
      (HttpServer.select_response request).1 = 400) ∧
    (HttpServer.select_response request).2 ≠ [] :=
  ⟨HttpServer.process_request_sent ord client_fd request_data request s hparse,
   HttpServer.select_response_cases request⟩

/-- C5 at `GET /missing HTTP/1.1`: the parse succeeds and the status chosen is 404. -/
theorem C5_status_selection_witness :
    HttpRequest.parse "GET /missing HTTP/1.1\r\n\r\n".toList HttpRequest.fresh =
      some ⟨"GET".toList, "/missing".toList, "HTTP/1.1".toList, [], [], true⟩ ∧
    (HttpServer.select_response
      ⟨"GET".toList, "/missing".toList, "HTTP/1.1".toList, [], [], true⟩).1 = 404 :=
  ⟨by decide,
   (C5_status_selection IterOrder.stored 7 "GET /missing HTTP/1.1\r\n\r\n".toList
      ⟨"GET".toList, "/missing".toList, "HTTP/1.1".toList, [], [], true⟩
      (HttpServer.start 10) (by decide)).2.2.1.mpr ⟨by decide, by decide⟩⟩

/-! ### The scenario `POST / HTTP/1.1` -/

set_option maxRecDepth 20000

/-- C6 fails as stated: for `POST / HTTP/1.1` with a Host header on a registered
connection, the response sent is a 400 that carries `Connection: keep-alive`, the call
returns, the record is still in the registry, its descriptor is re-armed, and nothing was
closed. -/
theorem C6_counterexample :
    (HttpServer.process_request IterOrder.stored 5 post_head one_connection).state.sent =
      [(5, ("HTTP/1.1 400 Bad Request\r\n" ++
            "Server: High-Performance-HTTP-Server/1.0\r\n" ++
            "Connection: keep-alive\r\n" ++
            "Keep-Alive: timeout=5, max=1000\r\n" ++
            "Content-Length: 102\r\n" ++
            "Content-Type: text/html; charset=utf-8\r\n" ++
            "\r\n").toList ++ HttpServer.body_method_not_allowed)] ∧
    (umap_find (HttpServer.process_request IterOrder.stored 5 post_head
      one_connection).state.connections 5).isSome = true ∧
    umap_find (HttpServer.process_request IterOrder.stored 5 post_head
      one_connection).state.epoll 5 = some true ∧
    Effect.close 5 ∉ (HttpServer.process_request IterOrder.stored 5 post_head
      one_connection).state.trace := by
  refine ⟨by decide, by decide, by decide, by decide⟩

/-- The request of the scenario as `parse` decodes it: keep-alive, since the version is
HTTP/1.1 and no Connection header says otherwise. -/
theorem post_head_parse :
    HttpRequest.parse post_head HttpRequest.fresh =
      some ⟨"POST".toList, "/".toList, "HTTP/1.1".toList, [("host".toList, "x".toList)], [],
        true⟩ := by
  decide

/-- The status and body chosen for the request of the scenario. -/
theorem post_head_select :
    HttpServer.select_response
      ⟨"POST".toList, "/".toList, "HTTP/1.1".toList, [("host".toList, "x".toList)], [], true⟩ =
      (400, HttpServer.body_method_not_allowed) := by
  decide

/-- The keep-alive path of `process_request`: with the record in the registry and the
mutex free, the call returns; it has sent the response, reset the record and re-armed
the descriptor. -/
theorem HttpServer.process_request_keep_alive (ord : IterOrder) (client_fd : Int)
    (request_data : Str) (request : HttpRequest) (conn : Connection) (s : HttpServer)
    (hparse : HttpRequest.parse request_data HttpRequest.fresh = some request)
    (hka : request.keep_alive = true)
    (hreg : umap_find s.connections client_fd = some conn)
    (hfree : s.mutex_held = false) :
    HttpServer.process_request ord client_fd request_data s = .returned
      { s with
        connections := umap_set s.connections client_fd (Connection.construct conn.fd),
        epoll := (match umap_find s.epoll client_fd with
                  | some _ => umap_set s.epoll client_fd true
                  | none => s.epoll),
        mutex_held := false,
        trace := s.trace ++
          [.process client_fd request_data,
           .send client_fd (HttpResponse.build_response ord
              (HttpServer.select_response request).1 (HttpServer.select_response request).2
              true),
           .record client_fd, .rearm client_fd] } := by
  unfold HttpServer.process_request
  simp only [hparse]
  simp only [HttpServer.lock, HttpServer.send_response, HttpServer.log, hfree,
    Outcome.and_then, hreg, hka, Bool.false_eq_true, if_false, if_true,
    HttpServer.unlock, HttpServer.rearm, List.append_assoc, List.cons_append,
    List.nil_append, Connection.reset, Connection.construct]

/-- C6 as amended: for `POST / HTTP/1.1` with a Host header, processed on a connection
that is in the registry and registered with epoll (mutex free), `process_request`
returns; the one response it sends is `HTTP/1.1 400 Bad Request` with the header lines
of a keep-alive response, so `Connection: keep-alive` is among them and
`Connection: close` is not; afterwards the record is still in the registry, reset, its
descriptor is armed again, and the effects are process, send, record, rearm: no close. -/
theorem C6_post_keeps_connection (ord : IterOrder) (client_fd : Int) (conn : Connection)
    (s : HttpServer)
    (hreg : umap_find s.connections client_fd = some conn)
    (hepoll : (umap_find s.epoll client_fd).isSome = true)
    (hfree : s.mutex_held = false) :
    ∃ s1 lines, HttpServer.process_request ord client_fd post_head s = .returned s1 ∧
      List.Perm lines (spec_header_lines HttpServer.body_method_not_allowed true) ∧
      "Connection: keep-alive\r\n".toList ∈ lines ∧
      "Connection: close\r\n".toList ∉ lines ∧
      s1.trace = s.trace ++
        [.process client_fd post_head,
         .send client_fd ("HTTP/1.1 400 Bad Request\r\n".toList ++ lines.flatten ++
            "\r\n".toList ++ HttpServer.body_method_not_allowed),
         .record client_fd, .rearm client_fd] ∧
      umap_find s1.connections client_fd = some (Connection.construct conn.fd) ∧
      umap_find s1.epoll client_fd = some true ∧
      s1.mutex_held = false := by
  obtain ⟨lines, hperm, hbuild, -⟩ := HttpResponse.build_response_format ord 400
    HttpServer.body_method_not_allowed true
  obtain ⟨armed, harmed⟩ := Option.isSome_iff_exists.mp hepoll
  have hrun := HttpServer.process_request_keep_alive ord client_fd post_head _ conn s
    post_head_parse rfl hreg hfree
  rw [post_head_select] at hrun
  have hline : "HTTP/1.1 ".toList ++ to_string 400 ++ " ".toList ++ spec_reason 400 ++
      "\r\n".toList = "HTTP/1.1 400 Bad Request\r\n".toList := by decide
  rw [hline] at hbuild
  refine ⟨_, lines, hrun, hperm, ?_, ?_, ?_, ?_, ?_, rfl⟩
  · exact hperm.symm.subset (by decide)
  · intro hmem
    exact absurd (hperm.subset hmem) (by decide)
  · simp only [hbuild]
  · simp only [umap_find_set, if_true]
  · simp only [harmed, umap_find_set, if_true]

/-- C6 as amended, at a server whose only connection is descriptor 5. -/
theorem C6_post_keeps_connection_witness :
    umap_find one_connection.connections 5 = some (Connection.construct 5) ∧
    ∃ s1 lines, HttpServer.process_request IterOrder.stored 5 post_head one_connection =
        .returned s1 ∧
      List.Perm lines (spec_header_lines HttpServer.body_method_not_allowed true) ∧
      "Connection: keep-alive\r\n".toList ∈ lines ∧
      "Connection: close\r\n".toList ∉ lines ∧
      s1.trace = one_connection.trace ++
        [.process 5 post_head,
         .send 5 ("HTTP/1.1 400 Bad Request\r\n".toList ++ lines.flatten ++
            "\r\n".toList ++ HttpServer.body_method_not_allowed),
         .record 5, .rearm 5] ∧
      umap_find s1.connections 5 = some (Connection.construct (Connection.construct 5).fd) ∧
      umap_find s1.epoll 5 = some true ∧
      s1.mutex_held = false :=
  ⟨rfl, C6_post_keeps_connection IterOrder.stored 5 (Connection.construct 5) one_connection
    rfl rfl rfl⟩

/-! ### The registry bound -/

/-- Erasing a key does not lengthen the map. -/
theorem umap_erase_length_le {κ ν : Type} [DecidableEq κ] (m : List (κ × ν)) (k : κ) :
    (umap_erase m k).length ≤ m.length := by
  induction m with
  | nil => exact Nat.le_refl _
  | cons e m ih =>
    obtain ⟨k0, v0⟩ := e
    by_cases h0 : k0 = k
    · simp only [umap_erase, h0, if_true, List.length_cons]
      omega
    · simp only [umap_erase, h0, if_false, List.length_cons]
      omega

/-- An assignment adds at most one entry. -/
theorem umap_set_length_le {κ ν : Type} [DecidableEq κ] (m : List (κ × ν)) (k : κ) (v : ν) :
    (umap_set m k v).length ≤ m.length + 1 := by
  induction m with
  | nil => simp [umap_set]
  | cons e m ih =>
    obtain ⟨k0, v0⟩ := e
    by_cases h0 : k0 = k
    · simp [umap_set, h0]
    · simp only [umap_set, h0, if_false, List.length_cons]
      omega

/-- An assignment to a stored key keeps the number of entries. -/
theorem umap_set_length_of_find {κ ν : Type} [DecidableEq κ] (m : List (κ × ν)) (k : κ)
    (v v0 : ν) (h : umap_find m k = some v0) : (umap_set m k v).length = m.length := by
  induction m with
  | nil => simp [umap_find] at h
  | cons e m ih =>
    obtain ⟨k1, v1⟩ := e
    by_cases h1 : k1 = k
    · simp [umap_set, h1]
    · simp only [umap_find, h1, if_false] at h
      simp only [umap_set, h1, if_false, List.length_cons, ih h]

/-- The method `close_connection` keeps the bound and the limit. -/
theorem HttpServer.close_connection_capacity (fd : Int) (s : HttpServer)
    (h : s.within_capacity) :
    (HttpServer.close_connection fd s).state.within_capacity ∧
    (HttpServer.close_connection fd s).state.max_connections = s.max_connections := by
  unfold HttpServer.within_capacity at *
  have hle := umap_erase_length_le s.connections fd
  cases hheld : s.mutex_held
  · simp only [HttpServer.close_connection, HttpServer.lock, hheld, Outcome.and_then,
      HttpServer.unlock, HttpServer.log, Outcome.state, Bool.false_eq_true, if_false]
    exact ⟨by omega, trivial⟩
  · simp only [HttpServer.close_connection, HttpServer.lock, hheld, Outcome.and_then,
      Outcome.state, if_true]
    exact ⟨h, trivial⟩

/-- One pass of `accept_connection` keeps the bound and the limit. -/
theorem HttpServer.accept_connection_capacity (fd : Int) (add_ok : Bool) (s : HttpServer)
    (h : s.within_capacity) :
    (HttpServer.accept_connection fd add_ok s).state.within_capacity ∧
    (HttpServer.accept_connection fd add_ok s).state.max_connections = s.max_connections := by
  cases hheld : s.mutex_held
  · by_cases hfull : s.connections.length ≥ s.max_connections
    · simp only [HttpServer.accept_connection, HttpServer.lock, hheld, Outcome.and_then,
        HttpServer.unlock, Outcome.state, Bool.false_eq_true, if_false, hfull, if_true]
      exact ⟨h, trivial⟩
    · have hset := umap_set_length_le s.connections fd (Connection.construct fd)
      cases add_ok
      · simp only [HttpServer.accept_connection, HttpServer.lock, hheld, Outcome.and_then,
          HttpServer.unlock, Bool.false_eq_true, if_false, hfull]
        refine HttpServer.close_connection_capacity fd _ ?_ |>.imp id (fun h => h.trans rfl)
        unfold HttpServer.within_capacity
        simp only
        omega
      · simp only [HttpServer.accept_connection, HttpServer.lock, hheld, Outcome.and_then,
          HttpServer.unlock, Outcome.state, Bool.false_eq_true, if_false, hfull, if_true]
        refine ⟨?_, trivial⟩
        unfold HttpServer.within_capacity
        simp only
        omega
  · simp only [HttpServer.accept_connection, HttpServer.lock, hheld, Outcome.and_then,
      Outcome.state, if_true]
    exact ⟨h, trivial⟩

/-- The method `stop` keeps the bound and the limit. -/
theorem HttpServer.stop_capacity (s : HttpServer) (h : s.within_capacity) :
    (HttpServer.stop s).state.within_capacity ∧
    (HttpServer.stop s).state.max_connections = s.max_connections := by
  unfold HttpServer.within_capacity at *
  cases hrun : s.running <;> cases hheld : s.mutex_held <;>
    simp [HttpServer.stop, HttpServer.lock, hrun, hheld, Outcome.and_then,
      HttpServer.unlock, Outcome.state, h]

/-- The method `close_connection` adds no record. -/
theorem HttpServer.close_connection_no_growth (fd : Int) (s : HttpServer) :
    s.no_growth (HttpServer.close_connection fd s).state := by
  unfold HttpServer.no_growth
  have hle := umap_erase_length_le s.connections fd
  cases hheld : s.mutex_held
  · simp only [HttpServer.close_connection, HttpServer.lock, hheld, Outcome.and_then,
      HttpServer.unlock, HttpServer.log, Outcome.state, Bool.false_eq_true, if_false]
    exact ⟨hle, trivial⟩
  · simp only [HttpServer.close_connection, HttpServer.lock, hheld, Outcome.and_then,
      Outcome.state, if_true]
    exact ⟨le_refl _, trivial⟩

/-- The method `process_request` adds no record. -/
theorem HttpServer.process_request_no_growth (ord : IterOrder) (fd : Int)
    (request_data : Str) (s : HttpServer) :
    s.no_growth (HttpServer.process_request ord fd request_data s).state := by
  unfold HttpServer.process_request
  cases hparse : HttpRequest.parse request_data HttpRequest.fresh with
  | none =>
    simp only []
    exact HttpServer.close_connection_no_growth fd _
  | some request =>
    simp only []
    cases hheld : s.mutex_held
    · cases hfind : umap_find s.connections fd with
      | none =>
        simp only [HttpServer.lock, HttpServer.send_response, HttpServer.log, hheld,
          Outcome.and_then, hfind, HttpServer.unlock, Outcome.state, Bool.false_eq_true,
          if_false]
        exact ⟨le_refl _, rfl⟩
      | some conn =>
        have hlen := umap_set_length_of_find s.connections fd
          (({ conn with keep_alive := request.keep_alive } : Connection).reset) conn hfind
        cases hka : request.keep_alive
        · simp only [HttpServer.lock, HttpServer.send_response, HttpServer.log, hheld,
            Outcome.and_then, hfind, HttpServer.unlock, Outcome.state, Bool.false_eq_true,
            if_false, HttpServer.close_connection, if_true]
          rw [hka] at hlen
          exact ⟨le_of_eq hlen, rfl⟩
        · simp only [HttpServer.lock, HttpServer.send_response, HttpServer.log, hheld,
            Outcome.and_then, hfind, HttpServer.unlock, Outcome.state, Bool.false_eq_true,
            if_false, HttpServer.rearm, if_true]
          rw [hka] at hlen
          exact ⟨le_of_eq hlen, rfl⟩
    · simp only [HttpServer.lock, HttpServer.send_response, HttpServer.log, hheld,
        Outcome.and_then, Outcome.state, if_true]
      exact ⟨le_refl _, rfl⟩

/-- The read-task adds no record. -/
theorem HttpServer.read_task_no_growth (ord : IterOrder) (fd : Int) (r : RecvResult)
    (s : HttpServer) :
    s.no_growth (HttpServer.read_task ord fd r s).state := by
  unfold HttpServer.read_task
  cases hheld : s.mutex_held
  · cases hfind : umap_find s.connections fd with
    | none =>
      simp only [HttpServer.lock, hheld, Outcome.and_then, hfind, HttpServer.unlock,
        Outcome.state, Bool.false_eq_true, if_false]
      exact ⟨le_refl _, rfl⟩
    | some conn =>
      simp only [HttpServer.lock, hheld, Outcome.and_then, hfind, Bool.false_eq_true,
        if_false]
      cases r with
      | eagain =>
        simp only [HttpServer.rearm, HttpServer.log, HttpServer.unlock, Outcome.state]
        exact ⟨le_refl _, rfl⟩
      | error =>
        simp only []
        exact HttpServer.close_connection_no_growth fd _
      | data bytes =>
        simp only []
        by_cases hn : bytes.length = 0
        · rw [if_pos hn]
          exact HttpServer.close_connection_no_growth fd _
        · rw [if_neg hn]
          have hlen := umap_set_length_of_find s.connections fd (conn.store bytes) conn hfind
          cases hscan : str_find crlfcrlf (conn.store bytes).request_data with
          | some header_end =>
            simp only []
            have h := HttpServer.process_request_no_growth ord fd
              ((conn.store bytes).request_data.take (header_end + 4))
              (HttpServer.log (.record fd)
                { HttpServer.log (.record fd) (HttpServer.unlock
                    { s with mutex_held := true }) with
                  connections := umap_set (HttpServer.log (.record fd) (HttpServer.unlock
                    { s with mutex_held := true })).connections fd (conn.store bytes) })
            exact ⟨h.1.trans (le_of_eq hlen), h.2⟩
          | none =>
            simp only []
            split
            · have h := HttpServer.close_connection_no_growth fd
                (HttpServer.log (.record fd)
                  { HttpServer.log (.record fd) (HttpServer.unlock
                      { s with mutex_held := true }) with
                    connections := umap_set (HttpServer.log (.record fd) (HttpServer.unlock
                      { s with mutex_held := true })).connections fd (conn.store bytes) })
              exact ⟨h.1.trans (le_of_eq hlen), h.2⟩
            · simp only [HttpServer.rearm, HttpServer.log, HttpServer.unlock, Outcome.state]
              exact ⟨le_of_eq hlen, rfl⟩
  · simp only [HttpServer.lock, hheld, Outcome.and_then, Outcome.state, if_true]
    exact ⟨le_refl _, rfl⟩

/-- Every operation keeps the bound and the limit. -/
theorem HttpServer.apply_op_capacity (ord : IterOrder) (op : RegistryOp) (s : HttpServer)
    (h : s.within_capacity) :
    (HttpServer.apply_op ord s op).within_capacity ∧
    (HttpServer.apply_op ord s op).max_connections = s.max_connections := by
  have hmono : ∀ t : HttpServer, s.no_growth t →
      t.within_capacity ∧ t.max_connections = s.max_connections := by
    intro t ht
    unfold HttpServer.within_capacity at *
    unfold HttpServer.no_growth at ht
    exact ⟨by omega, ht.2⟩
  cases op with
  | accept fd add_ok => exact HttpServer.accept_connection_capacity fd add_ok s h
  | close fd => exact hmono _ (HttpServer.close_connection_no_growth fd s)
  | stop => exact HttpServer.stop_capacity s h
  | read fd r => exact hmono _ (HttpServer.read_task_no_growth ord fd r s)

/-- Every sequence of operations keeps the bound and the limit. -/
theorem HttpServer.run_ops_capacity (ord : IterOrder) (ops : List RegistryOp) :
    ∀ s : HttpServer, s.within_capacity →
      (HttpServer.run_ops ord ops s).within_capacity ∧
      (HttpServer.run_ops ord ops s).max_connections = s.max_connections := by
  induction ops with
  | nil => intro s h; exact ⟨h, rfl⟩
  | cons op ops ih =>
    intro s h
    have h1 := HttpServer.apply_op_capacity ord op s h
    have h2 := ih (HttpServer.apply_op ord s op) h1.1
    exact ⟨h2.1, h2.2.trans h1.2⟩

/-- C8: from a started server with an empty registry, after any sequence of accept
passes, `close_connection` calls, `stop` calls and read-task runs, and after every
initial part of such a sequence, the registry holds at most `max_connections` records. -/
theorem C8_registry_capacity (ord : IterOrder) (max_connections : Nat)
    (ops : List RegistryOp) (k : Nat) :
    (HttpServer.run_ops ord (ops.take k)
      (HttpServer.start max_connections)).connections.length ≤ max_connections := by
  have h0 : (HttpServer.start max_connections).within_capacity := by
    unfold HttpServer.within_capacity HttpServer.start
    exact Nat.zero_le _
  have h := HttpServer.run_ops_capacity ord (ops.take k) (HttpServer.start max_connections) h0
  have h1 := h.1
  unfold HttpServer.within_capacity at h1
  rw [h.2] at h1
  exact h1

/-! ### The receive buffer -/

set_option maxRecDepth 512

/-- Under the invariant the requested length is the true difference: no wrap-around. -/
theorem Connection.recv_len_eq (c : Connection) (h : c.buffer_ok) :
    c.recv_len = 8191 - c.bytes_read := by
  obtain ⟨h1, h2⟩ := h
  unfold Connection.recv_len size_t_sub
  rw [h1] at h2 ⊢
  norm_num
  omega

/-- Storing no more bytes than requested keeps the invariant. -/
theorem Connection.store_buffer_ok (c : Connection) (bytes : Str) (h : c.buffer_ok)
    (hlen : bytes.length ≤ c.recv_len) : (c.store bytes).buffer_ok := by
  rw [Connection.recv_len_eq c h] at hlen
  obtain ⟨h1, h2⟩ := h
  unfold Connection.buffer_ok Connection.store
  simp only [List.length_set, List.length_append, List.length_take, List.length_drop, h1]
  rw [h1] at h2
  omega

/-- The invariant holds for every reachable record. -/
theorem Connection.reachable_buffer_ok (c : Connection) (h : Connection.Reachable c) :
    c.buffer_ok := by
  induction h with
  | construct fd =>
    unfold Connection.buffer_ok Connection.construct
    simp only [List.length_replicate]
    exact ⟨trivial, Nat.zero_le _⟩
  | read c r _ hr ih =>
    cases r with
    | data bytes =>
      unfold Connection.read_step
      by_cases hn : bytes.length = 0
      · simp only [hn, if_true]
        exact ih
      · simp only [hn, if_false]
        exact Connection.store_buffer_ok c bytes ih (hr bytes rfl)
    | eagain => exact ih
    | error => exact ih
  | reset c _ _ =>
    unfold Connection.buffer_ok Connection.reset
    simp only [List.length_replicate]
    exact ⟨trivial, Nat.zero_le _⟩

/-- C9: every record reachable from construction by read-task steps (with `recv`
returning at most the requested `buffer.size() - bytes_read - 1` bytes) and `reset()`
calls has `buffer.size() = 8192` and `bytes_read <= buffer.size() - 1`; hence the
requested length is `8191 - bytes_read` without wrap-around, and the index of the
sentinel write `buffer[bytes_read]` is within the buffer. -/
theorem C9_receive_buffer_invariant (c : Connection) (h : Connection.Reachable c) :
    c.buffer.length = 8192 ∧ c.bytes_read ≤ c.buffer.length - 1 ∧
    c.recv_len = c.buffer.length - c.bytes_read - 1 ∧
    c.bytes_read + c.recv_len = c.buffer.length - 1 ∧
    c.bytes_read < c.buffer.length := by
  have hok := Connection.reachable_buffer_ok c h
  have hlen := Connection.recv_len_eq c hok
  obtain ⟨h1, h2⟩ := hok
  rw [h1] at h2 ⊢
  refine ⟨rfl, h2, ?_, ?_, ?_⟩ <;> omega

/-- C9 at a record that has received `GET ` and then 8187 further bytes: it is
reachable and the invariant holds for it. -/
theorem C9_receive_buffer_invariant_witness :
    Connection.Reachable
      (((Connection.construct 5).read_step (.data "GET ".toList)).read_step
        (.data (List.replicate 8187 'a'))) ∧
    (((Connection.construct 5).read_step (.data "GET ".toList)).read_step
        (.data (List.replicate 8187 'a'))).bytes_read ≤
      (((Connection.construct 5).read_step (.data "GET ".toList)).read_step
        (.data (List.replicate 8187 'a'))).buffer.length - 1 :=
  have hfirst : Connection.Reachable
      ((Connection.construct 5).read_step (.data "GET ".toList)) := by
    refine Connection.Reachable.read _ _ (Connection.Reachable.construct 5) ?_
    intro bytes hb
    cases hb
    rw [Connection.recv_len_eq _
      (Connection.reachable_buffer_ok _ (Connection.Reachable.construct 5))]
    decide
  have hreach : Connection.Reachable
      (((Connection.construct 5).read_step (.data "GET ".toList)).read_step
        (.data (List.replicate 8187 'a'))) := by
    refine Connection.Reachable.read _ _ hfirst ?_
    intro bytes hb
    cases hb
    rw [Connection.recv_len_eq _ (Connection.reachable_buffer_ok _ hfirst)]
    simp only [List.length_replicate]
    decide
  ⟨hreach, (C9_receive_buffer_invariant _ hreach).2.1⟩

/-! ### One-shot arming -/

set_option linter.unusedTactic false

set_option linter.unreachableTactic false

/-- The effects of `close_connection`. -/
theorem HttpServer.close_connection_trace (fd : Int) (s : HttpServer) :
    (HttpServer.close_connection fd s).state.trace =
      s.trace ++ (if s.mutex_held then [] else [.close fd]) := by
  cases hheld : s.mutex_held <;>
    simp [HttpServer.close_connection, HttpServer.lock, hheld, Outcome.and_then,
      HttpServer.unlock, HttpServer.log, Outcome.state]

/-- The effects of `process_request` end with at most one re-arming. -/
theorem HttpServer.process_request_rearms_last (ord : IterOrder) (fd : Int)
    (request_data : Str) (s : HttpServer) :
    s.rearms_last fd (HttpServer.process_request ord fd request_data s) := by
  unfold HttpServer.rearms_last HttpServer.process_request
  cases hparse : HttpRequest.parse request_data HttpRequest.fresh with
  | none =>
    simp only []
    refine ⟨[.process fd request_data, .send fd (HttpResponse.build_response ord 400
      HttpServer.body_bad_request false)] ++ (if s.mutex_held then [] else [.close fd]),
      ?_, Or.inl ?_⟩
    · cases s.mutex_held <;> rfl
    · rw [HttpServer.close_connection_trace]
      simp [HttpServer.send_response, HttpServer.log]
  | some request =>
    simp only []
    cases hheld : s.mutex_held
    · cases hfind : umap_find s.connections fd with
      | none =>
        refine ⟨[.process fd request_data, .send fd (HttpResponse.build_response ord
          (HttpServer.select_response request).1 (HttpServer.select_response request).2
          request.keep_alive)], rfl, Or.inl ?_⟩
        simp [HttpServer.lock, HttpServer.send_response, HttpServer.log, hheld,
          Outcome.and_then, hfind, HttpServer.unlock, Outcome.state]
      | some conn =>
        cases hka : request.keep_alive
        · refine ⟨[.process fd request_data, .send fd (HttpResponse.build_response ord
            (HttpServer.select_response request).1 (HttpServer.select_response request).2
            false), .record fd], rfl, Or.inl ?_⟩
          simp [HttpServer.lock, HttpServer.send_response, HttpServer.log, hheld,
            Outcome.and_then, hfind, HttpServer.unlock, Outcome.state,
            HttpServer.close_connection]
        · refine ⟨[.process fd request_data, .send fd (HttpResponse.build_response ord
            (HttpServer.select_response request).1 (HttpServer.select_response request).2
            true), .record fd], rfl, Or.inr ⟨?_, rfl, ?_⟩⟩
          · simp [HttpServer.lock, HttpServer.send_response, HttpServer.log, hheld,
              Outcome.and_then, hfind, HttpServer.unlock, Outcome.is_blocked]
          · simp [HttpServer.lock, HttpServer.send_response, HttpServer.log, hheld,
              Outcome.and_then, hfind, HttpServer.unlock, Outcome.state, HttpServer.rearm]
    · refine ⟨[.process fd request_data, .send fd (HttpResponse.build_response ord
        (HttpServer.select_response request).1 (HttpServer.select_response request).2
        request.keep_alive)], rfl, Or.inl ?_⟩
      simp [HttpServer.lock, HttpServer.send_response, HttpServer.log, hheld,
        Outcome.and_then, Outcome.state]

/-- The shape carries over from a later state whose trace extends that of `s` by effects
that neither re-arm nor close. -/
theorem HttpServer.rearms_last_extend (fd : Int) (s s2 : HttpServer) (o : Outcome)
    (mid : List Effect) (htrace : s2.trace = s.trace ++ mid)
    (hmid : mid.any Effect.is_rearm = false) (hmid2 : mid.any Effect.is_close = false)
    (h : s2.rearms_last fd o) : s.rearms_last fd o := by
  obtain ⟨pre, hpre, hcase⟩ := h
  refine ⟨mid ++ pre, by simp [List.any_append, hmid, hpre], ?_⟩
  rcases hcase with h1 | ⟨hb, hc, h2⟩
  · exact Or.inl (by rw [h1, htrace, List.append_assoc])
  · exact Or.inr ⟨hb, by simp [List.any_append, hmid2, hc],
      by rw [h2, htrace, List.append_assoc, List.append_assoc]⟩

/-- The effects of the read-task end with at most one re-arming. -/
theorem HttpServer.read_task_rearms_last (ord : IterOrder) (fd : Int) (r : RecvResult)
    (s : HttpServer) :
    s.rearms_last fd (HttpServer.read_task ord fd r s) := by
  unfold HttpServer.read_task
  cases hheld : s.mutex_held
  · cases hfind : umap_find s.connections fd with
    | none =>
      refine ⟨[], rfl, Or.inl ?_⟩
      simp [HttpServer.lock, hheld, Outcome.and_then, hfind, HttpServer.unlock,
        Outcome.state]
    | some conn =>
      simp only [HttpServer.lock, hheld, Outcome.and_then, hfind, Bool.false_eq_true,
        if_false]
      cases r with
      | eagain =>
        refine ⟨[.record fd], rfl, Or.inr ⟨rfl, rfl, ?_⟩⟩
        simp [HttpServer.rearm, HttpServer.log, HttpServer.unlock, Outcome.state]
      | error =>
        refine ⟨[.record fd, .close fd], rfl, Or.inl ?_⟩
        simp only []
        rw [HttpServer.close_connection_trace]
        simp [HttpServer.log, HttpServer.unlock]
      | data bytes =>
        simp only []
        by_cases hn : bytes.length = 0
        · rw [if_pos hn]
          refine ⟨[.record fd, .close fd], rfl, Or.inl ?_⟩
          rw [HttpServer.close_connection_trace]
          simp [HttpServer.log, HttpServer.unlock]
        · rw [if_neg hn]
          cases hscan : str_find crlfcrlf (conn.store bytes).request_data with
          | some header_end =>
            simp only []
            refine HttpServer.rearms_last_extend fd s _ _ [.record fd, .record fd] ?_ rfl rfl
              (HttpServer.process_request_rearms_last ord fd _ _)
            simp [HttpServer.log, HttpServer.unlock]
          | none =>
            simp only []
            split
            · refine ⟨[.record fd, .record fd, .close fd], rfl, Or.inl ?_⟩
              rw [HttpServer.close_connection_trace]
              simp [HttpServer.log, HttpServer.unlock]
            · refine ⟨[.record fd, .record fd], rfl, Or.inr ⟨rfl, rfl, ?_⟩⟩
              simp [HttpServer.rearm, HttpServer.log, HttpServer.unlock, Outcome.state]
  · refine ⟨[], rfl, Or.inl ?_⟩
    simp [HttpServer.lock, hheld, Outcome.and_then, Outcome.state]

/-- Effects without a re-arming satisfy the discipline. -/
theorem spec_rearm_discipline_of_none (fd : Int) (t : List Effect)
    (h : t.any Effect.is_rearm = false) : spec_rearm_discipline fd t := by
  have hall : ∀ e ∈ t, e.is_rearm = false := by
    intro e he
    by_contra hne
    have : t.any Effect.is_rearm = true :=
      List.any_eq_true.mpr ⟨e, he, by simpa using hne⟩
    rw [h] at this
    exact Bool.false_ne_true this
  refine ⟨?_, ?_, fun _ => h, ?_⟩
  · rw [List.filter_eq_nil_iff.mpr (fun e he => by simp [hall e he])]
    exact Nat.zero_le _
  · intro g hg
    exact absurd (hall _ hg) (by simp [Effect.is_rearm])
  · intro a e b ht he
    have := hall e (by rw [ht]; simp)
    rw [he] at this
    exact absurd this (by simp)

/-- Effects without re-arming and close, followed by one re-arming of `fd`, satisfy the
discipline. -/
theorem spec_rearm_discipline_of_last (fd : Int) (pre : List Effect)
    (h : pre.any Effect.is_rearm = false) (hc : pre.any Effect.is_close = false) :
    spec_rearm_discipline fd (pre ++ [.rearm fd]) := by
  have hall : ∀ e ∈ pre, e.is_rearm = false := by
    intro e he
    by_contra hne
    have : pre.any Effect.is_rearm = true :=
      List.any_eq_true.mpr ⟨e, he, by simpa using hne⟩
    rw [h] at this
    exact Bool.false_ne_true this
  refine ⟨?_, ?_, ?_, ?_⟩
  · rw [List.filter_append, List.filter_eq_nil_iff.mpr (fun e he => by simp [hall e he])]
    simp [List.filter, Effect.is_rearm]
  · intro g hg
    rcases List.mem_append.mp hg with hg | hg
    · exact absurd (hall _ hg) (by simp [Effect.is_rearm])
    · simpa using hg
  · intro hclose
    rw [List.any_append, hc] at hclose
    simp [Effect.is_close] at hclose
  · intro a e b ht he
    rcases List.append_eq_append_iff.mp ht with ⟨a', ha, hb⟩ | ⟨c', ha, hb⟩
    · cases a' with
      | nil =>
        simp only [List.nil_append, List.cons.injEq] at hb
        rw [← hb.2]
        rfl
      | cons x a' =>
        simp only [List.cons_append, List.cons.injEq] at hb
        have := congrArg List.length hb.2
        simp only [List.length_nil, List.length_append, List.length_cons] at this
        omega
    · cases c' with
      | nil =>
        simp only [List.nil_append, List.cons.injEq] at hb
        rw [hb.2]
        rfl
      | cons x c' =>
        simp only [List.cons_append, List.cons.injEq] at hb
        have hmem : e ∈ pre := by rw [ha]; simp [hb.1]
        have := hall e hmem
        rw [he] at this
        exact absurd this (by simp)

/-- Lookup after an erase. -/
theorem umap_find_erase {κ ν : Type} [DecidableEq κ] (m : List (κ × ν)) (k g : κ) :
    umap_find (umap_erase m k) g = if k = g then none else umap_find m g := by
  induction m with
  | nil => simp [umap_erase, umap_find]
  | cons e m ih =>
    obtain ⟨k0, v0⟩ := e
    by_cases h0 : k0 = k
    · subst h0
      by_cases h1 : k0 = g
      · subst h1
        simpa [umap_erase] using ih
      · simp only [umap_erase, if_true, ih, h1, if_false, umap_find]
    · by_cases h1 : k = g
      · subst h1
        simp only [umap_erase, h0, if_false, umap_find, ih, if_true]
      · by_cases h2 : k0 = g
        · subst h2
          simp only [umap_erase, h0, if_false, umap_find, if_true, h1]
        · simp only [umap_erase, h0, if_false, umap_find, h2, ih, h1]

/-- The frame of `close_connection`. -/
theorem HttpServer.close_connection_frame (fd : Int) (s : HttpServer) :
    s.frame fd (HttpServer.close_connection fd s) := by
  unfold HttpServer.frame
  cases hheld : s.mutex_held
  · simp only [HttpServer.close_connection, HttpServer.lock, hheld, Outcome.and_then,
      HttpServer.unlock, HttpServer.log, Outcome.state, Outcome.is_blocked,
      Bool.false_eq_true, if_false]
    refine ⟨?_, ?_, ?_, ?_⟩
    all_goals first
      | rfl
      | trivial
      | exact fun _ _ => rfl
      | exact fun _ => rfl
      | exact fun _ _ => trivial
      | exact fun _ => trivial
      | (intro h; simp [Outcome.is_blocked] at h; done)
      | exact fun g hg => HttpServer.rearm_epoll_other fd g _ hg
      | (intro g hg; rw [umap_find_erase, if_neg (fun h => hg h.symm)])
  · simp only [HttpServer.close_connection, HttpServer.lock, hheld, Outcome.and_then,
      Outcome.state, if_true]
    refine ⟨?_, ?_, ?_, ?_⟩
    all_goals first
      | rfl
      | trivial
      | exact fun _ _ => rfl
      | exact fun _ => rfl
      | exact fun _ _ => trivial
      | exact fun _ => trivial
      | (intro h; simp [Outcome.is_blocked] at h; done)
      | exact fun g hg => HttpServer.rearm_epoll_other fd g _ hg
      | (intro g hg; rw [umap_find_erase, if_neg (fun h => hg h.symm)])

/-- Re-arming `fd` leaves the one-shot state of every other descriptor alone. -/
theorem HttpServer.rearm_epoll_other (fd g : Int) (s : HttpServer) (hg : g ≠ fd) :
    umap_find (HttpServer.rearm fd s).epoll g = umap_find s.epoll g := by
  unfold HttpServer.rearm HttpServer.log
  simp only []
  cases umap_find s.epoll fd with
  | none => rfl
  | some b =>
    simp only []
    rw [umap_find_set, if_neg (fun h => hg h.symm)]

/-- The frame of `process_request`. -/
theorem HttpServer.process_request_frame (ord : IterOrder) (fd : Int) (request_data : Str)
    (s : HttpServer) :
    s.frame fd (HttpServer.process_request ord fd request_data s) := by
  unfold HttpServer.process_request
  cases hparse : HttpRequest.parse request_data HttpRequest.fresh with
  | none =>
    simp only []
    exact HttpServer.close_connection_frame fd _
  | some request =>
    simp only []
    unfold HttpServer.frame
    cases hheld : s.mutex_held
    · cases hfind : umap_find s.connections fd with
      | none =>
        simp only [HttpServer.lock, HttpServer.send_response, HttpServer.log, hheld,
          Outcome.and_then, hfind, HttpServer.unlock, Outcome.state, Outcome.is_blocked,
          Bool.false_eq_true, if_false]
        refine ⟨?_, ?_, ?_, ?_⟩
        all_goals first
          | rfl
          | trivial
          | exact fun _ _ => rfl
          | exact fun _ => rfl
          | exact fun _ _ => trivial
          | exact fun _ => trivial
          | (intro h; simp [Outcome.is_blocked] at h; done)
          | exact fun g hg => HttpServer.rearm_epoll_other fd g _ hg
          | (intro g hg; rw [umap_find_erase, if_neg (fun h => hg h.symm)])
      | some conn =>
        cases hka : request.keep_alive
        · simp only [HttpServer.lock, HttpServer.send_response, HttpServer.log, hheld,
            Outcome.and_then, hfind, HttpServer.unlock, Outcome.state, Bool.false_eq_true,
            if_false, HttpServer.close_connection, if_true]
          refine ⟨?_, ?_, ?_, ?_⟩
          all_goals first
            | rfl
            | trivial
            | exact fun _ _ => rfl
            | exact fun _ => rfl
            | exact fun _ _ => trivial
            | exact fun _ => trivial
            | (intro h; simp [Outcome.is_blocked] at h; done)
            | exact fun g hg => HttpServer.rearm_epoll_other fd g _ hg
            | (intro g hg; rw [umap_find_erase, if_neg (fun h => hg h.symm)])
        · simp only [HttpServer.lock, HttpServer.send_response, HttpServer.log, hheld,
            Outcome.and_then, hfind, HttpServer.unlock, Outcome.state, Outcome.is_blocked,
            Bool.false_eq_true, if_false, if_true]
          refine ⟨?_, ?_, ?_, ?_⟩
          all_goals first
            | rfl
            | trivial
            | exact fun _ _ => rfl
            | exact fun _ => rfl
            | exact fun _ _ => trivial
            | exact fun _ => trivial
            | (intro h; simp [Outcome.is_blocked] at h; done)
            | exact fun g hg => HttpServer.rearm_epoll_other fd g _ hg
            | (intro g hg; rw [umap_find_erase, if_neg (fun h => hg h.symm)])
    · simp only [HttpServer.lock, HttpServer.send_response, HttpServer.log, hheld,
        Outcome.and_then, Outcome.state, if_true]
      refine ⟨?_, ?_, ?_, ?_⟩
      all_goals first
        | rfl
        | trivial
        | exact fun _ _ => rfl
        | exact fun _ => rfl
        | exact fun _ _ => trivial
        | exact fun _ => trivial
        | (intro h; simp [Outcome.is_blocked] at h; done)
        | exact fun g hg => HttpServer.rearm_epoll_other fd g _ hg
        | (intro g hg; rw [umap_find_erase, if_neg (fun h => hg h.symm)])

/-- The frame of the read-task. -/
theorem HttpServer.read_task_frame (ord : IterOrder) (fd : Int) (r : RecvResult)
    (s : HttpServer) :
    s.frame fd (HttpServer.read_task ord fd r s) := by
  unfold HttpServer.read_task
  cases hheld : s.mutex_held
  · cases hfind : umap_find s.connections fd with
    | none =>
      simp only [HttpServer.lock, hheld, Outcome.and_then, hfind, HttpServer.unlock,
        Bool.false_eq_true, if_false]
      refine ⟨?_, ?_, ?_, ?_⟩
      all_goals first
        | rfl
        | trivial
        | exact fun _ _ => rfl
        | exact fun _ => rfl
        | exact fun _ _ => trivial
        | exact fun _ => trivial
        | (intro h; simp [Outcome.is_blocked] at h; done)
        | exact fun g hg => HttpServer.rearm_epoll_other fd g _ hg
        | (intro g hg; rw [umap_find_erase, if_neg (fun h => hg h.symm)])
    | some conn =>
      simp only [HttpServer.lock, hheld, Outcome.and_then, hfind, Bool.false_eq_true,
        if_false]
      cases r with
      | eagain =>
        refine ⟨?_, ?_, ?_, ?_⟩
        all_goals first
          | rfl
          | trivial
          | exact fun _ _ => rfl
          | exact fun _ => rfl
          | exact fun _ _ => trivial
          | exact fun _ => trivial
          | (intro h; simp [Outcome.is_blocked] at h; done)
          | exact fun g hg => HttpServer.rearm_epoll_other fd g _ hg
          | (intro g hg; rw [umap_find_erase, if_neg (fun h => hg h.symm)])
      | error =>
        exact HttpServer.close_connection_frame fd _
      | data bytes =>
        simp only []
        by_cases hn : bytes.length = 0
        · rw [if_pos hn]
          exact HttpServer.close_connection_frame fd _
        · rw [if_neg hn]
          cases hscan : str_find crlfcrlf (conn.store bytes).request_data with
          | some header_end =>
            exact HttpServer.process_request_frame ord fd _ _
          | none =>
            simp only []
            split
            · exact HttpServer.close_connection_frame fd _
            · refine ⟨?_, ?_, ?_, ?_⟩
              all_goals first
                | rfl
                | trivial
                | exact fun _ _ => rfl
                | exact fun _ => rfl
                | exact fun _ _ => trivial
                | exact fun _ => trivial
                | (intro h; simp [Outcome.is_blocked] at h; done)
                | exact fun g hg => HttpServer.rearm_epoll_other fd g _ hg
                | (intro g hg; rw [umap_find_erase, if_neg (fun h => hg h.symm)])
  · simp only [HttpServer.lock, hheld, Outcome.and_then, if_true]
    refine ⟨?_, ?_, ?_, ?_⟩
    all_goals first
      | rfl
      | trivial
      | exact fun _ _ => rfl
      | exact fun _ => rfl
      | exact fun _ _ => trivial
      | exact fun _ => trivial
      | (intro h; simp [Outcome.is_blocked] at h; done)
      | exact fun g hg => HttpServer.rearm_epoll_other fd g _ hg
      | (intro g hg; rw [umap_find_erase, if_neg (fun h => hg h.symm)])

/-- Every step keeps the serialisation. -/
theorem HttpServer.step_serialized (ord : IterOrder) (s t : HttpServer)
    (hstep : HttpServer.Step ord s t) (h : s.serialized) : t.serialized := by
  cases hstep with
  | deliver fd harmed =>
    intro g
    obtain ⟨h1, h2⟩ := h g
    by_cases hg : g = fd
    · subst hg
      have h0 := h2 harmed
      refine ⟨?_, ?_⟩
      · simp only [List.count_append, List.count_cons_self, List.count_nil] at h0 ⊢
        omega
      · intro ha
        simp only [umap_find_set, if_true] at ha
        exact absurd ha (by simp)
    · have hne : ¬ fd = g := fun e => hg e.symm
      refine ⟨?_, ?_⟩
      · simp only [List.count_append, List.count_cons, List.count_nil] at h1 ⊢
        simp only [beq_iff_eq, hne, if_false]
        omega
      · intro ha
        simp only [umap_find_set, hne, if_false] at ha
        have h0 := h2 ha
        simp only [List.count_append, List.count_cons, List.count_nil] at h0 ⊢
        simp only [beq_iff_eq, hne, if_false]
        omega
  | run fd r hmem =>
    obtain ⟨ht, hs, hother, hblocked⟩ :=
      HttpServer.read_task_frame ord fd r { s with tasks := s.tasks.erase fd }
    have hfd := h fd
    have hpos : 0 < s.tasks.count fd := List.count_pos_iff.mpr hmem
    intro g
    obtain ⟨h1, h2⟩ := h g
    simp only [List.count_append] at h1 h2 hfd
    cases ho : HttpServer.read_task ord fd r { s with tasks := s.tasks.erase fd } with
    | returned u =>
      rw [ho] at ht hs hother
      simp only [Outcome.state] at ht hs hother
      simp only [HttpServer.finish, List.count_append, ht, hs]
      by_cases hg : g = fd
      · subst hg
        rw [List.count_erase_self]
        exact ⟨by omega, fun _ => by omega⟩
      · rw [List.count_erase_of_ne hg]
        refine ⟨h1, fun ha => h2 ?_⟩
        rw [← hother g hg]
        exact ha
    | blocked u =>
      rw [ho] at ht hs hother hblocked
      simp only [Outcome.state, Outcome.is_blocked] at ht hs hother hblocked
      have hep : u.epoll = s.epoll := hblocked trivial
      simp only [HttpServer.finish, List.count_append, ht, hs, List.count_cons]
      by_cases hg : g = fd
      · subst hg
        rw [List.count_erase_self]
        simp only [beq_self_eq_true, if_true]
        refine ⟨by omega, fun ha => ?_⟩
        rw [hep] at ha
        have := h2 ha
        omega
      · rw [List.count_erase_of_ne hg]
        have hne : ¬ fd = g := fun e => hg e.symm
        simp only [beq_iff_eq, hne, if_false, Nat.add_zero]
        refine ⟨h1, fun ha => h2 ?_⟩
        rw [← hep]
        exact ha

/-- Every reachable state is serialised. -/
theorem HttpServer.reachable_serialized (ord : IterOrder) (s : HttpServer)
    (h : HttpServer.Reachable ord s) : s.serialized := by
  induction h with
  | init s ht hs =>
    intro fd
    rw [ht, hs]
    exact ⟨Nat.zero_le _, fun _ => rfl⟩
  | step s t _ hstep ih => exact HttpServer.step_serialized ord s t hstep ih

/-- The effects a run of the read-task adds follow the discipline, and a run that never
returns adds no re-arming. -/
theorem HttpServer.read_task_discipline (ord : IterOrder) (fd : Int) (r : RecvResult)
    (s : HttpServer) :
    ∃ t, (HttpServer.read_task ord fd r s).state.trace = s.trace ++ t ∧
      spec_rearm_discipline fd t ∧
      ((HttpServer.read_task ord fd r s).is_blocked = true →
        t.any Effect.is_rearm = false) := by
  obtain ⟨pre, hpre, hcase⟩ := HttpServer.read_task_rearms_last ord fd r s
  rcases hcase with h1 | ⟨hb, hc, h2⟩
  · exact ⟨pre, h1, spec_rearm_discipline_of_none fd pre hpre, fun _ => hpre⟩
  · refine ⟨pre ++ [.rearm fd], h2, spec_rearm_discipline_of_last fd pre hpre hc, ?_⟩
    intro hbl
    rw [hb] at hbl
    exact absurd hbl (by simp)

/-- C7: in every state reachable by event deliveries (which disarm the descriptor and
enqueue one read-task) and runs of read-tasks, at most one read-task per client
descriptor is queued or running; and the effects a run of the read-task for `fd` adds
contain at most one re-arming, of `fd` only, none when the run closes the connection or
never returns, and no access to a connection record after the re-arming. -/
theorem C7_one_shot_serialization (ord : IterOrder) :
    (∀ s, HttpServer.Reachable ord s → ∀ fd, (s.tasks ++ s.stuck).count fd ≤ 1) ∧
    (∀ fd r s, ∃ t, (HttpServer.read_task ord fd r s).state.trace = s.trace ++ t ∧
      spec_rearm_discipline fd t ∧
      ((HttpServer.read_task ord fd r s).is_blocked = true →
        t.any Effect.is_rearm = false)) :=
  ⟨fun s h fd => (HttpServer.reachable_serialized ord s h fd).1,
   fun fd r s => HttpServer.read_task_discipline ord fd r s⟩

/-- C7 at the state after the read event of descriptor 5 was delivered: the state is
reachable and holds one read-task for descriptor 5. -/
theorem C7_one_shot_serialization_witness :
    HttpServer.Reachable IterOrder.stored
      { one_armed_connection with
        epoll := umap_set one_armed_connection.epoll 5 false,
        tasks := one_armed_connection.tasks ++ [5] } ∧
    (({ one_armed_connection with
        epoll := umap_set one_armed_connection.epoll 5 false,
        tasks := one_armed_connection.tasks ++ [5] } : HttpServer).tasks ++
      ({ one_armed_connection with
        epoll := umap_set one_armed_connection.epoll 5 false,
        tasks := one_armed_connection.tasks ++ [5] } : HttpServer).stuck).count 5 ≤ 1 :=
  have hreach : HttpServer.Reachable IterOrder.stored
      { one_armed_connection with
        epoll := umap_set one_armed_connection.epoll 5 false,
        tasks := one_armed_connection.tasks ++ [5] } :=
    HttpServer.Reachable.step _ _ (HttpServer.Reachable.init one_armed_connection rfl rfl)
      (HttpServer.Step.deliver one_armed_connection 5 rfl)
  ⟨hreach, (C7_one_shot_serialization IterOrder.stored).1 _ hreach 5⟩

/-! ### The head-size boundary -/

/-- Under the invariant the buffered bytes are `bytes_read` many. -/
theorem Connection.request_data_length (c : Connection) (h : c.buffer_ok) :
    c.request_data.length = c.bytes_read := by
  obtain ⟨h1, h2⟩ := h
  unfold Connection.request_data
  rw [List.length_take]
  omega

/-- Storing received bytes appends them to the buffered bytes. -/
theorem Connection.store_request_data (c : Connection) (bytes : Str) (h : c.buffer_ok) :
    (c.store bytes).request_data = c.request_data ++ bytes := by
  obtain ⟨h1, h2⟩ := h
  have hbr : (c.buffer.take c.bytes_read).length = c.bytes_read := by
    rw [List.length_take]
    omega
  unfold Connection.request_data Connection.store
  simp only []
  rw [List.set_take, List.append_assoc, List.take_append_eq_append_take, hbr,
    List.take_append_eq_append_take]
  have e1 : c.bytes_read + bytes.length - c.bytes_read = bytes.length := by omega
  have e2 : bytes.length - bytes.length = 0 := by omega
  rw [e1, e2, List.take_zero, List.append_nil, List.take_take,
    Nat.min_eq_right (by omega), List.take_of_length_le (le_refl bytes.length)]
  rw [List.set_eq_of_length_le]
  rw [List.length_append, hbr]

/-- A needle found in no extension of a text is not found in the text. -/
theorem str_find_none_of_append (needle a b : Str)
    (h : str_find needle (a ++ b) = none) : str_find needle a = none := by
  induction a with
  | nil =>
    cases hn : needle with
    | nil =>
      rw [hn] at h
      cases b with
      | nil => simp [str_find] at h
      | cons c s => simp [str_find, List.isPrefixOf] at h
    | cons x xs => simp [str_find]
  | cons c s ih =>
    have h' : (if needle.isPrefixOf (c :: (s ++ b)) = true then some 0
        else (str_find needle (s ++ b)).map (fun i => i + 1)) = none := h
    show (if needle.isPrefixOf (c :: s) = true then some 0
        else (str_find needle s).map (fun i => i + 1)) = none
    by_cases hp : needle.isPrefixOf (c :: (s ++ b)) = true
    · rw [if_pos hp] at h'
      exact absurd h' (by simp)
    · rw [if_neg hp] at h'
      have hs : str_find needle (s ++ b) = none := by
        cases hf : str_find needle (s ++ b) with
        | none => rfl
        | some i => rw [hf] at h'; simp at h'
      have hp2 : ¬ needle.isPrefixOf (c :: s) = true := by
        intro hq
        apply hp
        rw [List.isPrefixOf_iff_prefix] at hq ⊢
        exact hq.trans (List.prefix_append (c :: s) b)
      rw [if_neg hp2, ih hs]
      rfl

/-- A text without the first byte of a non-empty needle does not contain the needle. -/
theorem str_find_none_of_not_mem (x : Char) (xs s : Str) (h : x ∉ s) :
    str_find (x :: xs) s = none := by
  induction s with
  | nil => simp [str_find]
  | cons c s ih =>
    have hc : ¬ x = c := fun e => h (by rw [e]; exact List.mem_cons_self _ _)
    have hs : x ∉ s := fun hm => h (List.mem_cons_of_mem _ hm)
    have hb : (x == c) = false := by simpa using hc
    show (if (x :: xs).isPrefixOf (c :: s) = true then some 0
        else (str_find (x :: xs) s).map (fun i => i + 1)) = none
    have hp : (x :: xs).isPrefixOf (c :: s) = false := by
      simp [List.isPrefixOf, hb]
    rw [hp, ih hs]
    rfl

/-- The read-task on a registered descriptor, mutex free, after `recv` returned bytes:
scan, then process, close or re-arm. -/
theorem HttpServer.read_task_data (ord : IterOrder) (fd : Int) (bytes : Str)
    (conn : Connection) (s : HttpServer)
    (hreg : umap_find s.connections fd = some conn) (hfree : s.mutex_held = false)
    (hne : bytes ≠ []) :
    HttpServer.read_task ord fd (.data bytes) s =
      match str_find crlfcrlf (conn.store bytes).request_data with
      | some header_end =>
        HttpServer.process_request ord fd
          ((conn.store bytes).request_data.take (header_end + 4))
          (HttpServer.received fd (conn.store bytes) s)
      | none =>
        if (conn.store bytes).bytes_read ≥ size_t_sub (conn.store bytes).buffer.length 1 then
          HttpServer.close_connection fd (HttpServer.received fd (conn.store bytes) s)
        else
          .returned (HttpServer.rearm fd (HttpServer.received fd (conn.store bytes) s)) := by
  have hn : ¬ bytes.length = 0 := fun h => hne (List.length_eq_zero.mp h)
  unfold HttpServer.read_task
  simp only [HttpServer.lock, hfree, Outcome.and_then, hreg, Bool.false_eq_true, if_false,
    hn, HttpServer.unlock, HttpServer.log, HttpServer.received, List.append_assoc,
    List.cons_append, List.nil_append]

/-- The comparison `bytes_read >= buffer.size() - 1` under the invariant. -/
theorem Connection.full_iff (c : Connection) (h : c.buffer_ok) :
    c.bytes_read ≥ size_t_sub c.buffer.length 1 ↔ c.bytes_read = 8191 := by
  obtain ⟨h1, h2⟩ := h
  unfold size_t_sub
  rw [h1] at h2 ⊢
  norm_num
  omega

/-- What the read-task does with a chunk received while waiting, when the bytes buffered
afterwards fit the buffer (`recv` returned no more than requested): it scans the
buffered bytes, hands the bytes up to the first CR LF CR LF to `process_request`, or
closes when 8191 bytes are buffered, or stores the chunk and re-arms. -/
theorem HttpServer.read_task_waiting (ord : IterOrder) (fd : Int) (buffered chunk : Str)
    (s : HttpServer) (hw : s.waiting fd buffered) (hne : chunk ≠ [])
    (hlen : (buffered ++ chunk).length ≤ 8191) :
    ∃ s2, s2.trace = s.trace ++ [.record fd, .record fd] ∧
      HttpServer.read_task ord fd (.data chunk) s =
        (match str_find crlfcrlf (buffered ++ chunk) with
         | some p => HttpServer.process_request ord fd ((buffered ++ chunk).take (p + 4)) s2
         | none =>
           if (buffered ++ chunk).length = 8191 then
             .returned { s2 with connections := umap_erase s2.connections fd,
                                 epoll := umap_erase s2.epoll fd,
                                 trace := s2.trace ++ [.close fd] }
           else .returned (HttpServer.rearm fd s2)) ∧
      (str_find crlfcrlf (buffered ++ chunk) = none → (buffered ++ chunk).length < 8191 →
        (HttpServer.rearm fd s2).waiting fd (buffered ++ chunk)) := by
  obtain ⟨conn, hreg, hok, hdata, hfree⟩ := hw
  have hblen : buffered.length = conn.bytes_read := by
    rw [← hdata]
    exact Connection.request_data_length conn hok
  have hrecv : chunk.length ≤ conn.recv_len := by
    rw [Connection.recv_len_eq conn hok]
    rw [List.length_append] at hlen
    omega
  have hok2 := Connection.store_buffer_ok conn chunk hok hrecv
  have hdata2 : (conn.store chunk).request_data = buffered ++ chunk := by
    rw [Connection.store_request_data conn chunk hok, hdata]
  have hlen2 : (buffered ++ chunk).length = (conn.store chunk).bytes_read := by
    rw [← hdata2]
    exact Connection.request_data_length _ hok2
  refine ⟨HttpServer.received fd (conn.store chunk) s, rfl, ?_, ?_⟩
  · rw [HttpServer.read_task_data ord fd chunk conn s hreg hfree hne, hdata2]
    cases hscan : str_find crlfcrlf (buffered ++ chunk) with
    | some p => rfl
    | none =>
      simp only []
      by_cases hfull : (buffered ++ chunk).length = 8191
      · rw [if_pos hfull, if_pos ((Connection.full_iff _ hok2).mpr (by omega))]
        simp only [HttpServer.close_connection, HttpServer.lock, HttpServer.received,
          Outcome.and_then, HttpServer.unlock, HttpServer.log, Bool.false_eq_true, if_false]
      · rw [if_neg hfull, if_neg (fun h => hfull (by
          have := (Connection.full_iff _ hok2).mp h
          omega))]
  · intro _ _
    refine ⟨conn.store chunk, ?_, hok2, hdata2, rfl⟩
    simp only [HttpServer.rearm, HttpServer.log, HttpServer.received, umap_find_set, if_true]

/-- Feeding two lists of chunks one after the other. -/
theorem HttpServer.feed_append (ord : IterOrder) (fd : Int) (a b : List Str) :
    ∀ s, HttpServer.feed ord fd (a ++ b) s =
      HttpServer.feed ord fd b (HttpServer.feed ord fd a s) := by
  induction a with
  | nil => intro s; rfl
  | cons c a ih => intro s; exact ih _

/-- While the buffered bytes contain no CR LF CR LF and stay below 8191, feeding chunks
only stores them and re-arms: the task keeps waiting. -/
theorem HttpServer.feed_waiting (ord : IterOrder) (fd : Int) (chunks : List Str) :
    ∀ (buffered : Str) (s : HttpServer), s.waiting fd buffered →
      (∀ c ∈ chunks, c ≠ []) →
      str_find crlfcrlf (buffered ++ chunks.flatten) = none →
      (buffered ++ chunks.flatten).length < 8191 →
      (HttpServer.feed ord fd chunks s).waiting fd (buffered ++ chunks.flatten) ∧
      ∃ w, (HttpServer.feed ord fd chunks s).trace = s.trace ++ w ∧
        ∀ e ∈ w, e = Effect.record fd ∨ e = Effect.rearm fd := by
  induction chunks with
  | nil =>
    intro buffered s hw _ _ _
    refine ⟨by simpa [HttpServer.feed] using hw, [], by simp [HttpServer.feed], ?_⟩
    intro e he
    exact absurd he (List.not_mem_nil _)
  | cons c rest ih =>
    intro buffered s hw hne hnone hlen
    have hflat : buffered ++ (c :: rest).flatten = (buffered ++ c) ++ rest.flatten := by
      simp
    rw [hflat] at hnone hlen ⊢
    have hnone1 := str_find_none_of_append crlfcrlf (buffered ++ c) rest.flatten hnone
    have hlen1 : (buffered ++ c).length < 8191 := by
      rw [List.length_append] at hlen
      omega
    obtain ⟨s2, htrace, hrun, hwait⟩ := HttpServer.read_task_waiting ord fd buffered c s hw
      (hne c (by simp)) (by omega)
    rw [hnone1] at hrun
    simp only [] at hrun
    rw [if_neg (by omega)] at hrun
    have hw2 := hwait hnone1 hlen1
    obtain ⟨hw3, w, hw4, hw5⟩ := ih (buffered ++ c) (HttpServer.rearm fd s2) hw2
      (fun x hx => hne x (List.mem_cons_of_mem _ hx)) hnone hlen
    have hfeed : HttpServer.feed ord fd (c :: rest) s =
        HttpServer.feed ord fd rest (HttpServer.rearm fd s2) := by
      simp only [HttpServer.feed, hrun, Outcome.state]
    rw [hfeed]
    refine ⟨hw3, [.record fd, .record fd, .rearm fd] ++ w, ?_, ?_⟩
    · rw [hw4]
      simp only [HttpServer.rearm, HttpServer.log, htrace, List.append_assoc,
        List.cons_append, List.nil_append]
    · intro e he
      rcases List.mem_append.mp he with h1 | h1
      · simp only [List.mem_cons, List.mem_singleton, List.not_mem_nil, or_false] at h1
        rcases h1 with h1 | h1 | h1
        · exact Or.inl h1
        · exact Or.inl h1
        · exact Or.inr h1
      · exact hw5 e h1

/-- The first effect of `process_request` is its entry with the request data. -/
theorem HttpServer.process_request_trace_head (ord : IterOrder) (fd : Int)
    (request_data : Str) (s : HttpServer) :
    ∃ t, (HttpServer.process_request ord fd request_data s).state.trace =
      s.trace ++ Effect.process fd request_data :: t := by
  have key : s.trace ++ [Effect.process fd request_data] <+:
      (HttpServer.process_request ord fd request_data s).state.trace := by
    unfold HttpServer.process_request
    cases hparse : HttpRequest.parse request_data HttpRequest.fresh with
    | none =>
      simp only []
      rw [HttpServer.close_connection_trace]
      simp only [HttpServer.send_response, HttpServer.log, List.append_assoc]
      rw [← List.append_assoc]
      exact List.prefix_append _ _
    | some request =>
      cases hheld : s.mutex_held <;> cases hfind : umap_find s.connections fd <;>
        cases hka : request.keep_alive <;>
        simp [HttpServer.lock, HttpServer.unlock, HttpServer.log, HttpServer.send_response,
          HttpServer.rearm, HttpServer.close_connection, Outcome.and_then,
          Outcome.state, hheld, hfind, hka]
  obtain ⟨t, ht⟩ := key
  exact ⟨t, by rw [← ht, List.append_assoc]; rfl⟩

/-- A freshly constructed record in the registry, mutex free: the read-task is waiting
with nothing buffered. -/
theorem HttpServer.waiting_fresh (fd : Int) (s : HttpServer)
    (hreg : umap_find s.connections fd = some (Connection.construct fd))
    (hfree : s.mutex_held = false) : s.waiting fd [] :=
  ⟨Connection.construct fd, hreg,
    Connection.reachable_buffer_ok _ (Connection.Reachable.construct fd), rfl, hfree⟩

/-- The read-task on a chunk that fills the buffer to 8191 bytes without CR LF CR LF:
it returns with the record erased, after two record accesses and the close. -/
theorem HttpServer.read_task_full (ord : IterOrder) (fd : Int) (buffered chunk : Str)
    (s : HttpServer) (hw : s.waiting fd buffered) (hne : chunk ≠ [])
    (hnone : str_find crlfcrlf (buffered ++ chunk) = none)
    (hfull : (buffered ++ chunk).length = 8191) :
    (HttpServer.read_task ord fd (.data chunk) s).is_blocked = false ∧
    umap_find (HttpServer.read_task ord fd (.data chunk) s).state.connections fd = none ∧
    (HttpServer.read_task ord fd (.data chunk) s).state.trace =
      s.trace ++ [.record fd, .record fd, .close fd] := by
  obtain ⟨s2, htrace, hrun, -⟩ := HttpServer.read_task_waiting ord fd buffered chunk s hw hne
    (le_of_eq hfull)
  rw [hnone] at hrun
  simp only [] at hrun
  rw [if_pos hfull] at hrun
  rw [hrun]
  refine ⟨rfl, ?_, ?_⟩
  · simp only [Outcome.state, umap_find_erase, if_true]
  · simp only [Outcome.state, htrace, List.append_assoc, List.cons_append, List.nil_append]

/-- C10 fails as stated: on a fresh connection `recv` is asked for 8191 bytes; when it
returns the 8191 bytes of a head that CR LF CR LF would follow, the read-task returns
with the record erased, and its effects are two record accesses and the close:
`process_request` is not reached. -/
theorem C10_counterexample :
    (Connection.construct 5).recv_len = 8191 ∧
    (HttpServer.read_task IterOrder.stored 5 (.data (List.replicate 8191 'a'))
      one_connection).is_blocked = false ∧
    umap_find (HttpServer.read_task IterOrder.stored 5 (.data (List.replicate 8191 'a'))
      one_connection).state.connections 5 = none ∧
    (HttpServer.read_task IterOrder.stored 5 (.data (List.replicate 8191 'a'))
      one_connection).state.trace = [.record 5, .record 5, .close 5] := by
  have hw : one_connection.waiting 5 [] := HttpServer.waiting_fresh 5 one_connection rfl rfl
  have hne : List.replicate 8191 'a' ≠ [] := by
    intro h
    have := congrArg List.length h
    rw [List.length_replicate] at this
    exact absurd this (by decide)
  have hlen : ([] ++ List.replicate 8191 'a').length = 8191 :=
    List.length_replicate 8191 'a'
  have hnone : str_find crlfcrlf ([] ++ List.replicate 8191 'a') = none :=
    str_find_none_of_not_mem '\r' ['\n', '\r', '\n'] (List.replicate 8191 'a')
      (fun hmem => absurd (List.eq_of_mem_replicate hmem) (by decide))
  have h := HttpServer.read_task_full IterOrder.stored 5 [] (List.replicate 8191 'a')
    one_connection hw hne hnone hlen
  have hrecv : (Connection.construct 5).recv_len = 8191 :=
    Connection.recv_len_eq _
      (Connection.reachable_buffer_ok _ (Connection.Reachable.construct 5))
  exact ⟨hrecv, h.1, h.2.1, h.2.2⟩

/-- C10 as amended: on a fresh connection (record just constructed, mutex free), let
`recv` deliver the non-empty chunks `chunks` and then `last`, at most 8191 bytes in all
(no `recv` returns more than it was asked for), with no CR LF CR LF before `last`
arrives. If the bytes then buffered contain CR LF CR LF, first at position `p`, the
read-task enters `process_request` with the buffered bytes up to position `p + 4`,
after effects that only access the record and re-arm. If they contain none and are 8191
bytes, the record is erased and the effects are record accesses and re-armings followed
by the close: `process_request` is not entered. -/
theorem C10_head_size_boundary (ord : IterOrder) (fd : Int) (s : HttpServer)
    (chunks : List Str) (last : Str)
    (hreg : umap_find s.connections fd = some (Connection.construct fd))
    (hfree : s.mutex_held = false)
    (hne : ∀ c ∈ chunks, c ≠ []) (hlast : last ≠ [])
    (hlen : (chunks.flatten ++ last).length ≤ 8191)
    (hwait : str_find crlfcrlf chunks.flatten = none) :
    (∀ p, str_find crlfcrlf (chunks.flatten ++ last) = some p →
      ∃ w t, (HttpServer.feed ord fd (chunks ++ [last]) s).trace =
          s.trace ++ w ++ Effect.process fd ((chunks.flatten ++ last).take (p + 4)) :: t ∧
        ∀ e ∈ w, e = Effect.record fd ∨ e = Effect.rearm fd) ∧
    (str_find crlfcrlf (chunks.flatten ++ last) = none →
      (chunks.flatten ++ last).length = 8191 →
      umap_find (HttpServer.feed ord fd (chunks ++ [last]) s).connections fd = none ∧
      ∃ w, (HttpServer.feed ord fd (chunks ++ [last]) s).trace =
          s.trace ++ w ++ [Effect.close fd] ∧
        ∀ e ∈ w, e = Effect.record fd ∨ e = Effect.rearm fd) := by
  have hpos : 0 < last.length := List.length_pos.mpr hlast
  have hlen0 : ([] ++ chunks.flatten).length < 8191 := by
    rw [List.length_append] at hlen
    rw [List.nil_append]
    omega
  obtain ⟨hw, w, htrace, hwonly⟩ := HttpServer.feed_waiting ord fd chunks [] s
    (HttpServer.waiting_fresh fd s hreg hfree) hne (by rw [List.nil_append]; exact hwait) hlen0
  rw [List.nil_append] at hw
  obtain ⟨s2, htrace2, hrun, -⟩ := HttpServer.read_task_waiting ord fd chunks.flatten last
    (HttpServer.feed ord fd chunks s) hw hlast hlen
  have hfeed : HttpServer.feed ord fd (chunks ++ [last]) s =
      (HttpServer.read_task ord fd (.data last) (HttpServer.feed ord fd chunks s)).state := by
    rw [HttpServer.feed_append]
    rfl
  have hw2 : ∀ e ∈ w ++ [Effect.record fd, Effect.record fd],
      e = Effect.record fd ∨ e = Effect.rearm fd := by
    intro e he
    rcases List.mem_append.mp he with h1 | h1
    · exact hwonly e h1
    · simp only [List.mem_cons, List.mem_singleton, List.not_mem_nil, or_false] at h1
      rcases h1 with h1 | h1
      · exact Or.inl h1
      · exact Or.inl h1
  refine ⟨?_, ?_⟩
  · intro p hp
    rw [hp] at hrun
    simp only [] at hrun
    obtain ⟨t, ht⟩ := HttpServer.process_request_trace_head ord fd
      ((chunks.flatten ++ last).take (p + 4)) s2
    refine ⟨w ++ [Effect.record fd, Effect.record fd], t, ?_, hw2⟩
    rw [hfeed, hrun, ht, htrace2, htrace]
    simp only [List.append_assoc]
  · intro hnone hfull
    rw [hnone] at hrun
    simp only [] at hrun
    rw [if_pos hfull] at hrun
    refine ⟨?_, w ++ [Effect.record fd, Effect.record fd], ?_, hw2⟩
    · rw [hfeed, hrun]
      simp only [Outcome.state, umap_find_erase, if_true]
    · rw [hfeed, hrun]
      simp only [Outcome.state, htrace2, htrace, List.append_assoc]

/-- A needle that follows a text without its first byte is found right after the text. -/
theorem str_find_append_of_not_mem (x : Char) (xs s : Str) (h : x ∉ s) :
    str_find (x :: xs) (s ++ x :: xs) = some s.length := by
  induction s with
  | nil =>
    show (if (x :: xs).isPrefixOf (x :: xs) = true then some 0
      else (str_find (x :: xs) xs).map (fun i => i + 1)) = some 0
    rw [if_pos (by rw [List.isPrefixOf_iff_prefix])]
  | cons c s ih =>
    have hc : ¬ x = c := fun e => h (by rw [e]; exact List.mem_cons_self _ _)
    have hs : x ∉ s := fun hm => h (List.mem_cons_of_mem _ hm)
    have hb : (x == c) = false := by simpa using hc
    show (if (x :: xs).isPrefixOf (c :: (s ++ x :: xs)) = true then some 0
      else (str_find (x :: xs) (s ++ x :: xs)).map (fun i => i + 1)) = some (s.length + 1)
    have hp : (x :: xs).isPrefixOf (c :: (s ++ x :: xs)) = false := by
      simp [List.isPrefixOf, hb]
    rw [hp, ih hs]
    rfl

/-- C10 as amended, at the boundary: a head of 8187 bytes followed by CR LF CR LF, 8191
bytes in all, received in one piece on a fresh connection, reaches `process_request`. -/
theorem C10_head_size_boundary_witness :
    (([] : List Str).flatten ++ (List.replicate 8187 'a' ++ crlfcrlf)).length ≤ 8191 ∧
    ∃ w t, (HttpServer.feed IterOrder.stored 5 ([] ++ [List.replicate 8187 'a' ++ crlfcrlf])
        one_connection).trace =
        one_connection.trace ++ w ++
          Effect.process 5 ((([] : List Str).flatten ++
            (List.replicate 8187 'a' ++ crlfcrlf)).take (8187 + 4)) :: t ∧
      ∀ e ∈ w, e = Effect.record 5 ∨ e = Effect.rearm 5 :=
  have hlen : (([] : List Str).flatten ++ (List.replicate 8187 'a' ++ crlfcrlf)).length
      ≤ 8191 := by
    rw [List.flatten_nil, List.nil_append, List.length_append, List.length_replicate]
    exact Nat.le_refl 8191
  have hlast : List.replicate 8187 'a' ++ crlfcrlf ≠ [] := by
    intro h
    have := congrArg List.length h
    rw [List.length_append, List.length_replicate] at this
    exact absurd this (by decide)
  have hfind : str_find crlfcrlf (([] : List Str).flatten ++
      (List.replicate 8187 'a' ++ crlfcrlf)) = some 8187 := by
    have h := str_find_append_of_not_mem '\r' ['\n', '\r', '\n'] (List.replicate 8187 'a')
      (fun hmem => absurd (List.eq_of_mem_replicate hmem) (by decide))
    rw [List.length_replicate] at h
    exact h
  ⟨hlen, (C10_head_size_boundary IterOrder.stored 5 one_connection []
    (List.replicate 8187 'a' ++ crlfcrlf) rfl rfl (fun c hc => absurd hc (List.not_mem_nil c))
    hlast hlen rfl).1 8187 hfind⟩

/-! ### The worker loop -/

/-- The loop after tasks that all return normally: it goes on with the rest of the queue
in the state they leave. -/
theorem ThreadPool.worker_loop_append {σ ε : Type} (stop : Bool)
    (pre : List (PoolTask σ ε)) :
    ∀ (rest : List (PoolTask σ ε)) (s s1 : σ), spec_run_tasks pre s = some s1 →
      ThreadPool.worker_loop stop (pre ++ rest) s = ThreadPool.worker_loop stop rest s1 := by
  induction pre with
  | nil =>
    intro rest s s1 h
    simp only [spec_run_tasks, Option.some.injEq] at h
    rw [h]
    rfl
  | cons task pre ih =>
    intro rest s s1 h
    simp only [spec_run_tasks] at h
    simp only [List.cons_append, ThreadPool.worker_loop]
    cases ht : task s with
    | error e =>
      rw [ht] at h
      exact absurd h (by simp)
    | ok s2 =>
      rw [ht] at h
      exact ih rest s2 s1 h

/-- C11 fails as stated: with a throwing task in front of a counting task and `stop_`
set, `worker_thread` ends with the exception leaving the loop; the counting task is
still queued and has not run. -/
theorem C11_counterexample :
    ThreadPool.worker_thread ⟨[raising_task, counting_task], true⟩ 0 =
      .escaped "boom".toList [counting_task] ∧
    ThreadPool.worker_thread ⟨[raising_task, counting_task], true⟩ 0 ≠ .exited 1 := by
  refine ⟨rfl, ?_⟩
  intro h
  have h1 : ThreadPool.worker_thread ⟨[raising_task, counting_task], true⟩ 0 =
      .escaped "boom".toList [counting_task] := rfl
  rw [h1] at h
  exact WorkerEnd.noConfusion h

/-- C11 as amended: `worker_thread` calls each task without a handler. After tasks
`pre` that all return normally, leaving state `s1`: if the queue holds nothing more, the
worker returns when `stop_` is set and sleeps otherwise; if the next task throws `e`,
the exception leaves `worker_thread` and the tasks behind it are not run; if the next
task returns normally, the worker goes on with the tasks behind it. -/
theorem C11_worker_loop_no_handler {σ ε : Type} (stop : Bool)
    (pre rest : List (PoolTask σ ε)) (task : PoolTask σ ε) (s s1 : σ)
    (hpre : spec_run_tasks pre s = some s1) :
    ThreadPool.worker_thread ⟨pre, stop⟩ s = (if stop then .exited s1 else .waiting s1) ∧
    (∀ e, task s1 = .error e →
      ThreadPool.worker_thread ⟨pre ++ task :: rest, stop⟩ s = .escaped e rest) ∧
    (∀ s2, task s1 = .ok s2 →
      ThreadPool.worker_thread ⟨pre ++ task :: rest, stop⟩ s =
        ThreadPool.worker_thread ⟨rest, stop⟩ s2) := by
  refine ⟨?_, ?_, ?_⟩
  · have h := ThreadPool.worker_loop_append stop pre [] s s1 hpre
    rw [List.append_nil] at h
    unfold ThreadPool.worker_thread
    rw [h]
    rfl
  · intro e he
    unfold ThreadPool.worker_thread
    simp only []
    rw [ThreadPool.worker_loop_append stop pre (task :: rest) s s1 hpre]
    simp only [ThreadPool.worker_loop, he]
  · intro s2 hs2
    unfold ThreadPool.worker_thread
    simp only []
    rw [ThreadPool.worker_loop_append stop pre (task :: rest) s s1 hpre]
    simp only [ThreadPool.worker_loop, hs2]

/-- C11 as amended, at two counting tasks followed by a throwing one and a further
counting task, `stop_` not set: the exception leaves the loop after two runs. -/
theorem C11_worker_loop_no_handler_witness :
    spec_run_tasks [counting_task, counting_task] 0 = some 2 ∧
    ThreadPool.worker_thread
      ⟨[counting_task, counting_task] ++ raising_task :: [counting_task], false⟩ 0 =
      .escaped "boom".toList [counting_task] :=
  ⟨rfl, (C11_worker_loop_no_handler false [counting_task, counting_task] [counting_task]
    raising_task 0 2 rfl).2.1 "boom".toList rfl⟩

/-! ### The decoder input contract -/

/-- A found needle: the text up to the end of the occurrence is the text before it
followed by the needle, and no occurrence starts earlier. -/
theorem str_find_some (needle : Str) :
    ∀ (s : Str) (p : Nat), str_find needle s = some p →
      s.take (p + needle.length) = s.take p ++ needle ∧
      ∀ q, q < p → ¬ spec_occurs_at needle s q := by
  intro s
  induction s with
  | nil =>
    intro p h
    by_cases hn : needle = []
    · simp only [str_find, hn, if_true, Option.some.injEq] at h
      subst hn
      refine ⟨by simp, ?_⟩
      intro q hq
      omega
    · simp only [str_find, hn, if_false] at h
      exact absurd h (by simp)
  | cons c s ih =>
    intro p h
    have h' : (if needle.isPrefixOf (c :: s) = true then some 0
        else (str_find needle s).map (fun i => i + 1)) = some p := h
    by_cases hp : needle.isPrefixOf (c :: s) = true
    · rw [if_pos hp] at h'
      simp only [Option.some.injEq] at h'
      subst h'
      rw [List.isPrefixOf_iff_prefix] at hp
      refine ⟨?_, ?_⟩
      · rw [Nat.zero_add, List.take_zero, List.nil_append]
        exact (List.prefix_iff_eq_take.mp hp).symm
      · intro q hq
        omega
    · rw [if_neg hp] at h'
      cases hf : str_find needle s with
      | none =>
        rw [hf] at h'
        exact absurd h' (by simp)
      | some p1 =>
        rw [hf] at h'
        simp only [Option.map_some', Option.some.injEq] at h'
        subst h'
        obtain ⟨h1, h2⟩ := ih p1 hf
        refine ⟨?_, ?_⟩
        · have e : p1 + 1 + needle.length = (p1 + needle.length) + 1 := by omega
          rw [e, List.take_succ_cons, List.take_succ_cons, h1, List.cons_append]
        · intro q hq
          cases q with
          | zero =>
            unfold spec_occurs_at
            rw [List.drop_zero, ← List.isPrefixOf_iff_prefix]
            exact hp
          | succ q1 =>
            unfold spec_occurs_at
            rw [List.drop_succ_cons]
            exact h2 q1 (by omega)

/-- The text up to the end of the first occurrence of a non-empty needle: it is a
start of the text, it ends with the needle, no occurrence in the text starts before
position `p`, and the only occurrence it contains starts at `p`, its last
`needle.length` bytes. -/
theorem str_find_head (needle s : Str) (p : Nat) (hn : 0 < needle.length)
    (h : str_find needle s = some p) :
    s.take (p + needle.length) = s.take p ++ needle ∧
    (s.take (p + needle.length)).length = p + needle.length ∧
    s.take (p + needle.length) <+: s ∧
    needle <:+ s.take (p + needle.length) ∧
    (∀ q, spec_occurs_at needle s q → p ≤ q) ∧
    (∀ q, spec_occurs_at needle (s.take (p + needle.length)) q ↔ q = p) := by
  obtain ⟨h1, h2⟩ := str_find_some needle s p h
  have hlen := congrArg List.length h1
  simp only [List.length_take, List.length_append] at hlen
  have hps : p + needle.length ≤ s.length := by omega
  have hp : (s.take p).length = p := by
    rw [List.length_take]
    omega
  have hfirst : ∀ q, spec_occurs_at needle s q → p ≤ q := by
    intro q hq
    by_contra hlt
    exact h2 q (by omega) hq
  refine ⟨h1, ?_, List.take_prefix _ _, ?_, hfirst, ?_⟩
  · rw [List.length_take]
    omega
  · rw [h1]
    exact List.suffix_append _ _
  · intro q
    constructor
    · intro hq
      unfold spec_occurs_at at hq
      have hle := hq.length_le
      rw [List.length_drop, List.length_take] at hle
      have hq2 : spec_occurs_at needle s q := by
        unfold spec_occurs_at
        rw [List.drop_take] at hq
        exact hq.trans (List.take_prefix _ _)
      have := hfirst q hq2
      omega
    · intro hq
      subst hq
      unfold spec_occurs_at
      rw [h1, List.drop_left' hp]

/-- The effects of `process_request` hold one entry, the first of them, with the
request data it was given. -/
theorem HttpServer.process_request_one_entry (ord : IterOrder) (fd : Int)
    (request_data : Str) (s : HttpServer) :
    ∃ t, (HttpServer.process_request ord fd request_data s).state.trace =
        s.trace ++ Effect.process fd request_data :: t ∧
      t.any Effect.is_process = false := by
  unfold HttpServer.process_request
  cases hparse : HttpRequest.parse request_data HttpRequest.fresh with
  | none =>
    simp only []
    refine ⟨[.send fd (HttpResponse.build_response ord 400
      HttpServer.body_bad_request false)] ++ (if s.mutex_held then [] else [.close fd]),
      ?_, ?_⟩
    · rw [HttpServer.close_connection_trace]
      simp [HttpServer.send_response, HttpServer.log]
    · cases s.mutex_held <;> rfl
  | some request =>
    simp only []
    cases hheld : s.mutex_held
    · cases hfind : umap_find s.connections fd with
      | none =>
        refine ⟨[.send fd (HttpResponse.build_response ord
          (HttpServer.select_response request).1 (HttpServer.select_response request).2
          request.keep_alive)], ?_, rfl⟩
        simp [HttpServer.lock, HttpServer.send_response, HttpServer.log, hheld,
          Outcome.and_then, hfind, HttpServer.unlock, Outcome.state]
      | some conn =>
        cases hka : request.keep_alive
        · refine ⟨[.send fd (HttpResponse.build_response ord
            (HttpServer.select_response request).1 (HttpServer.select_response request).2
            false), .record fd], ?_, rfl⟩
          simp [HttpServer.lock, HttpServer.send_response, HttpServer.log, hheld,
            Outcome.and_then, hfind, HttpServer.unlock, Outcome.state,
            HttpServer.close_connection]
        · refine ⟨[.send fd (HttpResponse.build_response ord
            (HttpServer.select_response request).1 (HttpServer.select_response request).2
            true), .record fd, .rearm fd], ?_, rfl⟩
          simp [HttpServer.lock, HttpServer.send_response, HttpServer.log, hheld,
            Outcome.and_then, hfind, HttpServer.unlock, Outcome.state, HttpServer.rearm]
    · refine ⟨[.send fd (HttpResponse.build_response ord
        (HttpServer.select_response request).1 (HttpServer.select_response request).2
        request.keep_alive)], ?_, rfl⟩
      simp [HttpServer.lock, HttpServer.send_response, HttpServer.log, hheld,
        Outcome.and_then, Outcome.state]

/-- The effects of the read-task: either they hold no entry into `process_request`, or
`recv` returned bytes for a registered descriptor, the buffered bytes contain
CR LF CR LF, first at position `p`, and the one entry carries the buffered bytes up to
position `p + 4`. -/
theorem HttpServer.read_task_entries (ord : IterOrder) (fd : Int) (r : RecvResult)
    (s : HttpServer) :
    (∃ t, (HttpServer.read_task ord fd r s).state.trace = s.trace ++ t ∧
      t.any Effect.is_process = false) ∨
    (∃ conn bytes p pre t, r = .data bytes ∧ umap_find s.connections fd = some conn ∧
      str_find crlfcrlf (conn.store bytes).request_data = some p ∧
      pre.any Effect.is_process = false ∧ t.any Effect.is_process = false ∧
      (HttpServer.read_task ord fd r s).state.trace =
        s.trace ++ (pre ++ Effect.process fd
          ((conn.store bytes).request_data.take (p + 4)) :: t)) := by
  unfold HttpServer.read_task
  cases hheld : s.mutex_held
  · cases hfind : umap_find s.connections fd with
    | none =>
      refine Or.inl ⟨[], ?_, rfl⟩
      simp [HttpServer.lock, hheld, Outcome.and_then, hfind, HttpServer.unlock,
        Outcome.state]
    | some conn =>
      simp only [HttpServer.lock, hheld, Outcome.and_then, hfind, Bool.false_eq_true,
        if_false]
      cases r with
      | eagain =>
        refine Or.inl ⟨[.record fd, .rearm fd], ?_, rfl⟩
        simp [HttpServer.rearm, HttpServer.log, HttpServer.unlock, Outcome.state]
      | error =>
        refine Or.inl ⟨[.record fd, .close fd], ?_, rfl⟩
        simp only []
        rw [HttpServer.close_connection_trace]
        simp [HttpServer.log, HttpServer.unlock]
      | data bytes =>
        simp only []
        by_cases hn : bytes.length = 0
        · rw [if_pos hn]
          refine Or.inl ⟨[.record fd, .close fd], ?_, rfl⟩
          rw [HttpServer.close_connection_trace]
          simp [HttpServer.log, HttpServer.unlock]
        · rw [if_neg hn]
          cases hscan : str_find crlfcrlf (conn.store bytes).request_data with
          | some header_end =>
            simp only []
            obtain ⟨t, ht, hnone⟩ := HttpServer.process_request_one_entry ord fd
              ((conn.store bytes).request_data.take (header_end + 4))
              (HttpServer.log (.record fd)
                { HttpServer.log (.record fd) (HttpServer.unlock
                    { s with mutex_held := true }) with
                  connections := umap_set (HttpServer.log (.record fd) (HttpServer.unlock
                    { s with mutex_held := true })).connections fd (conn.store bytes) })
            refine Or.inr ⟨conn, bytes, header_end, [.record fd, .record fd], t, rfl, rfl,
              hscan, rfl, hnone, ?_⟩
            rw [ht]
            simp [HttpServer.log, HttpServer.unlock]
          | none =>
            simp only []
            split
            · refine Or.inl ⟨[.record fd, .record fd, .close fd], ?_, rfl⟩
              rw [HttpServer.close_connection_trace]
              simp [HttpServer.log, HttpServer.unlock]
            · refine Or.inl ⟨[.record fd, .record fd, .rearm fd], ?_, rfl⟩
              simp [HttpServer.rearm, HttpServer.log, HttpServer.unlock, Outcome.state]
  · refine Or.inl ⟨[], ?_, rfl⟩
    simp [HttpServer.lock, hheld, Outcome.and_then, Outcome.state]

/-- Effects without an entry into `process_request` hold no such entry. -/
theorem Effect.not_mem_of_any_is_process (t : List Effect)
    (h : t.any Effect.is_process = false) (g : Int) (data : Str) :
    Effect.process g data ∉ t := by
  intro hmem
  have : t.any Effect.is_process = true :=
    List.any_eq_true.mpr ⟨Effect.process g data, hmem, rfl⟩
  rw [h] at this
  exact Bool.false_ne_true this

/-- C12: every entry into `process_request` among the effects a run of the read-task
adds is for the descriptor of the task, and comes from a `recv` that returned bytes
after which the buffered bytes contain CR LF CR LF, first at a position `p`; the data
passed are the buffered bytes before `p` followed by CR LF CR LF, a start of the
buffered bytes, `p + 4` bytes long; they end with CR LF CR LF, and the only occurrence
of CR LF CR LF in them starts at `p`, their last four bytes. -/
theorem C12_decoder_input_contract (ord : IterOrder) (fd : Int) (r : RecvResult)
    (s : HttpServer) :
    ∃ t, (HttpServer.read_task ord fd r s).state.trace = s.trace ++ t ∧
      ∀ g data, Effect.process g data ∈ t →
        g = fd ∧ ∃ conn bytes p, r = .data bytes ∧
          umap_find s.connections fd = some conn ∧
          str_find crlfcrlf (conn.store bytes).request_data = some p ∧
          data = (conn.store bytes).request_data.take p ++ crlfcrlf ∧
          data.length = p + 4 ∧
          data <+: (conn.store bytes).request_data ∧
          (∀ q, spec_occurs_at crlfcrlf (conn.store bytes).request_data q → p ≤ q) ∧
          crlfcrlf <:+ data ∧
          (∀ q, spec_occurs_at crlfcrlf data q ↔ q = p) := by
  rcases HttpServer.read_task_entries ord fd r s with
    ⟨t, ht, hnone⟩ | ⟨conn, bytes, p, pre, t, hr, hreg, hscan, hpre, hnone, ht⟩
  · refine ⟨t, ht, ?_⟩
    intro g data hmem
    exact absurd hmem (Effect.not_mem_of_any_is_process t hnone g data)
  · refine ⟨_, ht, ?_⟩
    intro g data hmem
    have h4 : crlfcrlf.length = 4 := rfl
    obtain ⟨h1, h2, h3, h5, h6, h7⟩ := str_find_head crlfcrlf (conn.store bytes).request_data p
      (by rw [h4]; omega) hscan
    rw [h4] at h1 h2 h3 h5 h7
    rcases List.mem_append.mp hmem with hm | hm
    · exact absurd hm (Effect.not_mem_of_any_is_process pre hpre g data)
    · rcases List.mem_cons.mp hm with hm | hm
      · simp only [Effect.process.injEq] at hm
        obtain ⟨hg, hd⟩ := hm
        subst hg
        rw [hd]
        exact ⟨rfl, conn, bytes, p, hr, hreg, hscan, h1, h2, h3, h6, h5, h7⟩
      · exact absurd hm (Effect.not_mem_of_any_is_process t hnone g data)

set_option maxRecDepth 20000

/-- C12 at the request `GET / HTTP/1.1` with a Host header, received in one piece on
descriptor 5: the read-task enters `process_request` with the whole head, which ends
with CR LF CR LF. -/
theorem C12_decoder_input_contract_witness :
    ∃ t, (HttpServer.read_task IterOrder.stored 5 (.data get_head)
        one_connection).state.trace = one_connection.trace ++ t ∧
      Effect.process 5 get_head ∈ t ∧ crlfcrlf <:+ get_head := by
  obtain ⟨t, ht, hall⟩ := C12_decoder_input_contract IterOrder.stored 5 (.data get_head)
    one_connection
  have hmem : Effect.process 5 get_head ∈ t := by
    have h0 : one_connection.trace ++ t = t := rfl
    rw [h0] at ht
    rw [← ht]
    decide
  obtain ⟨-, _, _, _, -, -, -, -, -, -, -, hsuffix, -⟩ := hall 5 get_head hmem
  exact ⟨t, ht, hmem, hsuffix⟩

set_option maxRecDepth 512

/-! ### Re-locking of the registry mutex -/

/-- The branch of `process_request` for a request without keep-alive: with the record
in the registry and the mutex free, the call has sent the response, locked the mutex
and reset the record; its call of `close_connection` then locks the mutex again, so
the call never returns, the record stays in the registry and the mutex stays locked. -/
theorem HttpServer.process_request_relock (ord : IterOrder) (client_fd : Int)
    (request_data : Str) (request : HttpRequest) (conn : Connection) (s : HttpServer)
    (hparse : HttpRequest.parse request_data HttpRequest.fresh = some request)
    (hka : request.keep_alive = false)
    (hreg : umap_find s.connections client_fd = some conn)
    (hfree : s.mutex_held = false) :
    HttpServer.process_request ord client_fd request_data s = .blocked
      { s with
        connections := umap_set s.connections client_fd (Connection.construct conn.fd),
        mutex_held := true,
        trace := s.trace ++
          [.process client_fd request_data,
           .send client_fd (HttpResponse.build_response ord
              (HttpServer.select_response request).1 (HttpServer.select_response request).2
              false),
           .record client_fd] } := by
  unfold HttpServer.process_request
  simp only [hparse]
  simp only [HttpServer.lock, HttpServer.send_response, HttpServer.log, hfree,
    Outcome.and_then, hreg, hka, Bool.false_eq_true, if_false, if_true,
    HttpServer.close_connection, List.append_assoc, List.cons_append,
    List.nil_append, Connection.reset, Connection.construct]

set_option maxRecDepth 20000

/-- C13 fails on the code: for `GET /missing HTTP/1.1` with `Connection: close` on the
registered descriptor 5, `process_request` sends the 404 with `Connection: close` and
then never returns: it holds the mutex, the record is still in the registry, nothing
was closed, and a later `close_connection` for the descriptor never returns either.
The same happens when the read-task receives that head. On a malformed head, where
`close_connection` is called with the mutex free, the call returns and the record is
erased. -/
theorem C13_self_relock :
    (HttpServer.process_request IterOrder.stored 5 close_head one_connection).is_blocked =
      true ∧
    (HttpServer.process_request IterOrder.stored 5 close_head
      one_connection).state.mutex_held = true ∧
    (umap_find (HttpServer.process_request IterOrder.stored 5 close_head
      one_connection).state.connections 5).isSome = true ∧
    Effect.close 5 ∉ (HttpServer.process_request IterOrder.stored 5 close_head
      one_connection).state.trace ∧
    (HttpServer.process_request IterOrder.stored 5 close_head one_connection).state.sent =
      [(5, ("HTTP/1.1 404 Not Found\r\n" ++
            "Server: High-Performance-HTTP-Server/1.0\r\n" ++
            "Connection: close\r\n" ++
            "Content-Length: 91\r\n" ++
            "Content-Type: text/html; charset=utf-8\r\n" ++
            "\r\n").toList ++ HttpServer.body_not_found)] ∧
    (HttpServer.close_connection 5 (HttpServer.process_request IterOrder.stored 5
      close_head one_connection).state).is_blocked = true ∧
    (HttpServer.read_task IterOrder.stored 5 (.data close_head)
      one_connection).is_blocked = true ∧
    (umap_find (HttpServer.read_task IterOrder.stored 5 (.data close_head)
      one_connection).state.connections 5).isSome = true ∧
    (HttpServer.process_request IterOrder.stored 5 "BROKEN REQUEST\r\n\r\n".toList
      one_connection).is_blocked = false ∧
    umap_find (HttpServer.process_request IterOrder.stored 5
      "BROKEN REQUEST\r\n\r\n".toList one_connection).state.connections 5 = none := by
  refine ⟨by decide, by decide, by decide, by decide, by decide, by decide, by decide,
    by decide, by decide, by decide⟩

set_option maxRecDepth 512
